import Mathlib

set_option maxRecDepth 100000

namespace CSSNav

/-! Shallow embedding of `src/server/src/languages/css/css-range-parser.ts`.

Strings are modelled as lists of characters (`Chars`); positions are
absolute character offsets.  The external `document.positionAt`
abstraction is modelled as the identity on offsets, so the `range` of a
`NamedRange` is the pair of raw offsets `(start, end)`.

The scanner of `parse` is driven by the JavaScript regular expression

  `\s*(?:\/\/.*|\/\*[\s\S]*?\*\/|((?:\(.*?\)|".*?"|'.*?'|[\s\S])*?)([;\x7b\x7d]))`

executed repeatedly with the `g` flag.  The functions `fragSearchF`,
`matchStep` and `tokenizeF` below reproduce its semantics, including the
backtracking order of the lazy quantifiers:

* the lazy fragment loop prefers ending at a terminator over consuming
  one more unit;
* within one unit the alternatives are tried in order: parenthesised
  span, double-quoted span, single-quoted span, arbitrary character;
* a lazy `.*?` inside a span first closes at the nearest closing
  delimiter on the same line, and on failure retries each later closing
  delimiter on the same line (`.` without the `s` flag matches no line
  terminator: `\n`, `\r`, U+2028 or U+2029);
* when no alternative leads to a successful overall match the engine
  falls back to consuming a single character.

A regex match that is a comment binds no groups and `parse` ignores it,
so the tokenizer drops comments and only emits fragment/terminator
tokens.  Once no terminator character remains in the rest of the text no
further fragment match exists (any later match is a comment and has no
effect), so the tokenizer stops there. -/

abbrev Chars := List Char

def lbrace : Char := Char.ofNat 123

def rbrace : Char := Char.ofNat 125

def squote : Char := Char.ofNat 39

/-- JS `\s` on the ASCII range: space, tab, newline, carriage return,
vertical tab, form feed. -/
def isWS (c : Char) : Bool :=
  c = ' ' || c = '\t' || c = '\n' || c = '\r' || c = Char.ofNat 11 || c = Char.ofNat 12

/-- JS `\w`: ASCII letters, digits and underscore. -/
def isWordChar (c : Char) : Bool :=
  c.isAlpha || c.isDigit || c = '_'

def isWordDash (c : Char) : Bool :=
  isWordChar c || c = '-'

/-- The terminator class `[;\x7b\x7d]` of the scanning regex. -/
def isTerm (c : Char) : Bool :=
  c = ';' || c = lbrace || c = rbrace

/-- The JS line terminators, which `.` without the `s` flag does not
match: newline, carriage return, line separator U+2028 and paragraph
separator U+2029. -/
def isLineTerm (c : Char) : Bool :=
  c = '\n' || c = '\r' || c = Char.ofNat 0x2028 || c = Char.ofNat 0x2029

/-- First `some` value of `f` over a list, in order (the backtracking
preference of a regex alternation). -/
def firstSome {α β : Type} (f : α → Option β) : List α → Option β
  | [] => none
  | a :: as =>
    match f a with
    | some b => some b
    | none => firstSome f as

/-- Tails of `cs` just past each occurrence of `close`, in order of
occurrence.  With `noNewline = true` the scan stops at the first line
terminator: these are exactly the candidate continuations of a lazy
`\(.*?\)`-style span (whose `.`, lacking the `s` flag, cannot cross a
line terminator), nearest closing delimiter first. -/
def atomicSplits (close : Char) (noNewline : Bool) : Chars → List Chars
  | [] => []
  | c :: cs =>
    if noNewline && isLineTerm c then []
    else if c = close then cs :: atomicSplits close noNewline cs
    else atomicSplits close noNewline cs

/-- Candidate continuations for an atomic span opened by `c` in the
fragment regex, in backtracking order (nearest closing delimiter first;
empty when `c` opens no span). -/
def fragAtomics (c : Char) (cs : Chars) : List Chars :=
  if c = '(' then atomicSplits ')' true cs
  else if c = '"' then atomicSplits '"' true cs
  else if c = squote then atomicSplits squote true cs
  else []

/-- The fragment part `((?:\(.*?\)|".*?"|'.*?'|[\s\S])*?)([;\x7b\x7d])` of
the scanning regex, as a fuel-indexed backtracking search.  On success it
returns the captured fragment (group 1), the terminator character
(group 2) and the remaining text.  Fuel `cs.length + 1` is always
sufficient since every recursive call strictly shortens the text. -/
def fragSearchF : Nat → Chars → Option (Chars × Char × Chars)
  | 0, _ => none
  | _ + 1, [] => none
  | fuel + 1, c :: cs =>
    if isTerm c then some ([], c, cs)
    else
      match firstSome (fun tail =>
          match fragSearchF fuel tail with
          | some (f, t, r) => some (c :: (cs.take (cs.length - tail.length) ++ f), t, r)
          | none => none) (fragAtomics c cs) with
      | some res => some res
      | none =>
        match fragSearchF fuel cs with
        | some (f, t, r) => some (c :: f, t, r)
        | none => none

def fragSearch (cs : Chars) : Option (Chars × Char × Chars) :=
  fragSearchF (cs.length + 1) cs

/-- Rest of the text after the closing `*/` of a block comment body
(the text after the opening `/*`); `none` when the comment is
unterminated, in which case the regex alternative fails (lazy
`[\s\S]*?\*\/`: the nearest `*/`). -/
def findBlockCommentEnd : Chars → Option Chars
  | [] => none
  | c :: cs =>
    if c = '*' ∧ cs.head? = some '/' then some cs.tail
    else findBlockCommentEnd cs

/-- One emitted match of the scanning regex that carries a fragment:
`sel` is group 1 (the raw, untrimmed fragment), `endChar` is group 2,
and `lastIndex` is `re.lastIndex` just after the match, i.e. the offset
one past the terminator character. -/
structure Token where
  sel : Chars
  endChar : Char
  lastIndex : Nat
  deriving DecidableEq, Repr

/-- The fragment alternative at absolute position `pos1` (whitespace
already skipped): on success the token's `lastIndex` is the position one
past the terminator. -/
def fragStep (pos1 : Nat) (cs1 : Chars) : Option (Option Token × Nat × Chars) :=
  match fragSearch cs1 with
  | some (f, t, r) => some (some ⟨f, t, pos1 + f.length + 1⟩, pos1 + f.length + 1, r)
  | none => none

/-- One `re.exec` step at absolute position `pos` with remaining text
`cs`: skip the greedy `\s*`, then try the comment alternatives, then the
fragment alternative.  Returns the emitted token (if any), the new
position and the remaining text; `none` ends the scan loop. -/
def matchStep (pos : Nat) (cs : Chars) : Option (Option Token × Nat × Chars) :=
  let cs1 := cs.dropWhile (fun c => isWS c)
  let pos1 := pos + (cs.length - cs1.length)
  match cs1 with
  | c :: d :: rest =>
    if c = '/' ∧ d = '/' then
      let body := rest.dropWhile (fun e => !(isLineTerm e))
      some (none, pos1 + 2 + (rest.length - body.length), body)
    else if c = '/' ∧ d = '*' then
      match findBlockCommentEnd rest with
      | some r => some (none, pos1 + 2 + (rest.length - r.length), r)
      | none => fragStep pos1 cs1
    else fragStep pos1 cs1
  | _ => fragStep pos1 cs1

/-- The `while (match = re.exec(text))` loop, emitting the fragment
tokens in order.  Fuel `cs.length + 1` is always sufficient since every
step consumes at least one character. -/
def tokenizeF : Nat → Nat → Chars → List Token
  | 0, _, _ => []
  | fuel + 1, pos, cs =>
    match matchStep pos cs with
    | none => []
    | some (some t, pos', cs') => t :: tokenizeF fuel pos' cs'
    | some (none, pos', cs') => tokenizeF fuel pos' cs'

def tokenize (cs : Chars) : List Token :=
  tokenizeF (cs.length + 1) 0 cs

/-! ## Data model -/

/-- The supported language dialects (`supportedLanguages` in the source;
unrecognized identifiers are coerced to `css` by the constructor before
parsing ever runs, so the dialect of a parse is always one of these). -/
inductive Lang
  | css
  | less
  | scss
  deriving DecidableEq, Repr

/-- Modelled from the spec: `CSSService.isLanguageSupportsNesting` is an
external collaborator (the dialect-capability oracle) whose source is not
part of the excerpt; per the spec the nesting-capable dialects are LESS
and SCSS, plain CSS is not. -/
def Lang.supportsNesting : Lang → Bool
  | .css => false
  | .less => true
  | .scss => true

structure LeafName where
  raw : Chars
  full : Chars
  isSelector : Bool
  deriving DecidableEq, Repr

/-- `LeafRange` of the source; `parent` is modelled as an index into the
scanner's block list (object references in the source; within one parse
call every parent reference points to an earlier-created block, so the
index model is exact). -/
structure LeafRange where
  names : List LeafName
  start : Nat
  «end» : Nat
  parent : Option Nat
  deriving DecidableEq, Repr

structure FullMainName where
  full : Chars
  main : Chars
  deriving DecidableEq, Repr

structure NamedRange where
  names : List FullMainName
  range : Nat × Nat
  deriving DecidableEq, Repr

/-! ## String helpers (JS `trimRight`, `trimLeft`, `trim`,
`replace(/\s+/g, ' ')`) -/

def trimLeftList (s : Chars) : Chars := s.dropWhile (fun c => isWS c)

def trimRightList (s : Chars) : Chars := (s.reverse.dropWhile (fun c => isWS c)).reverse

def trimList (s : Chars) : Chars := trimLeftList (trimRightList s)

def collapseWSAux : Bool → Chars → Chars
  | _, [] => []
  | prevWS, c :: cs =>
    if isWS c then
      if prevWS then collapseWSAux true cs else ' ' :: collapseWSAux true cs
    else c :: collapseWSAux false cs

/-- JS `replace(/\s+/g, ' ')`: every maximal whitespace run becomes one
space. -/
def collapseWS (s : Chars) : Chars := collapseWSAux false s

/-- Line 85 of the source: `selector.trimRight().replace(/\s+/g, ' ')`. -/
def normalizeSelector (s : Chars) : Chars := collapseWS (trimRightList s)

/-! ## Name Splitter (`parseToNames`) -/

/-- The match of `/^@[\w-]+/` on the selector text, if any. -/
def atCommandOf (selectors : Chars) : Option Chars :=
  match selectors with
  | '@' :: rest =>
    let w := rest.takeWhile (fun c => isWordDash c)
    if w = [] then none else some ('@' :: w)
  | _ => none

/-- Continuation search of the comma-splitting regex
`/((?:\[.*?\]|\(.*?\)|.)+?)(?:,|$)/gs` after at least one unit has been
consumed: lazily prefer ending at `,` or end-of-string, otherwise
consume one more unit (bracket span, paren span, or single character,
in that order; the `s` flag lets `.` cross newlines).  Returns the rest
after the whole match and whether a comma was consumed. -/
def splitContF : Nat → Chars → Option (Chars × Bool)
  | 0, _ => none
  | _ + 1, [] => some ([], false)
  | fuel + 1, c :: cs =>
    if c = ',' then some (cs, true)
    else
      let atomics : List Chars :=
        if c = '[' then atomicSplits ']' false cs
        else if c = '(' then atomicSplits ')' false cs
        else []
      match firstSome (fun tail => splitContF fuel tail) atomics with
      | some r => some r
      | none => splitContF fuel cs

/-- One `exec` of the comma-splitting regex at the start of `cs`:
the forced first unit, then the lazy continuation.  Returns group 1 and
the rest of the string after the match. -/
def splitSearch : Chars → Option (Chars × Chars)
  | [] => none
  | c :: cs =>
    let fuel := cs.length + 1
    let res : Option (Chars × Bool) :=
      let atomics : List Chars :=
        if c = '[' then atomicSplits ']' false cs
        else if c = '(' then atomicSplits ')' false cs
        else []
      match firstSome (fun tail => splitContF fuel tail) atomics with
      | some r => some r
      | none => splitContF fuel cs
    match res with
    | some (rest, comma) =>
      let glen := (c :: cs).length - rest.length - (if comma then 1 else 0)
      some ((c :: cs).take glen, rest)
    | none => none

/-- The `while (match = re.exec(selectors))` loop of `parseToNames`. -/
def splitLoopF : Nat → Chars → List Chars
  | 0, _ => []
  | fuel + 1, cs =>
    match splitSearch cs with
    | some (g, rest) => g :: splitLoopF fuel rest
    | none => []

def splitLoop (cs : Chars) : List Chars := splitLoopF (cs.length + 1) cs

def splitNames (ignoreDeep : Nat) (selectors : Chars) : List LeafName :=
  (splitLoop selectors).filterMap fun g =>
    let name := trimList g
    if name = [] then none
    else some ⟨name, name, ignoreDeep == 0⟩

/-- `parseToNames` of the source (the Name Splitter). -/
def parseToNames (languageId : Lang) (ignoreDeep : Nat) (selectors : Chars) : List LeafName :=
  match atCommandOf selectors with
  | some command =>
    if languageId = .scss ∧ command = "@at-root".toList then
      ⟨command, command, false⟩ ::
        splitNames ignoreDeep (trimLeftList (selectors.drop command.length))
    else [⟨selectors, selectors, false⟩]
  | none => splitNames ignoreDeep selectors

/-! ## Main-Selector Extractor -/

/-- Rest of the list just past the first occurrence of `close` (the
deterministic span units `\[[^\]]*?\]` and `\([^)]*?\)` of the
right-most-descendant regex: their bodies cannot contain the closing
delimiter, so only the nearest one is a candidate). -/
def firstCloseSplit (close : Char) : Chars → Option Chars
  | [] => none
  | c :: cs => if c = close then some cs else firstCloseSplit close cs

/-- Reachability of the end of the string from this suffix by units of
`/(?:\[[^\]]*?\]|\([^)]*?\)|[^\s+>~])+?$/`.  A successful match of that
regex starting at a position consumes exactly the whole suffix, so the
leftmost match is the suffix at the first position from which the end
is reachable. -/
def rmdReachF : Nat → Chars → Bool
  | 0, _ => false
  | _ + 1, [] => true
  | fuel + 1, c :: cs =>
    (c == '[' &&
      (match firstCloseSplit ']' cs with
       | some t => rmdReachF fuel t
       | none => false)) ||
    (c == '(' &&
      (match firstCloseSplit ')' cs with
       | some t => rmdReachF fuel t
       | none => false)) ||
    (!(isWS c || c == '+' || c == '>' || c == '~') && rmdReachF fuel cs)

def rmdReach (cs : Chars) : Bool := rmdReachF (cs.length + 1) cs

/-- `getRightMostDescendant` of the source. -/
def getRightMostDescendant : Chars → Chars
  | [] => []
  | c :: cs => if rmdReach (c :: cs) then c :: cs else getRightMostDescendant cs

/-- The match of `/^[#.]?\w[\w-]*/`, if any. -/
def mainMatch : Chars → Option Chars
  | [] => none
  | c :: cs =>
    if c = '#' ∨ c = '.' then
      match cs with
      | d :: ds => if isWordChar d then some (c :: d :: ds.takeWhile (fun e => isWordDash e)) else none
      | [] => none
    else if isWordChar c then some (c :: cs.takeWhile (fun e => isWordDash e))
    else none

/-- `getMainSelector` of the source. -/
def getMainSelector (selector : Chars) : Chars :=
  let rightMost := getRightMostDescendant selector
  if rightMost = [] then []
  else
    match mainMatch rightMost with
    | none => []
    | some main =>
      if (match main.head? with | some c => isWordChar c | none => false) &&
          rightMost.length < selector.length then []
      else main

/-- `hasSingleReferenceInRightMostDescendant`: the right-most descendant
matches `/^&(?:[^\w-]|$)/`. -/
def hasSingleReferenceInRightMostDescendant (selector : Chars) : Bool :=
  match getRightMostDescendant selector with
  | '&' :: rest =>
    match rest with
    | [] => true
    | d :: _ => !isWordDash d
  | _ => false

/-- `formatLeafNameToFullMainName` of the source. -/
def formatLeafNameToFullMainName (n : LeafName) : FullMainName :=
  if !n.isSelector then ⟨n.full, []⟩
  else if hasSingleReferenceInRightMostDescendant n.raw then ⟨n.full, []⟩
  else ⟨n.full, getMainSelector n.full⟩

/-! ## Nesting Resolver -/

/-- A `&` counts as a nesting reference when at the start of the string
or preceded by whitespace or a combinator (`/(?<=^|[\s+>~])&/g`).  The
lookbehind inspects the original string, and `String.replace` with a
global regex matches against the original string, so both the test and
the replacement are pure scans tracking the previous original
character. -/
def isRefBoundary : Option Char → Bool
  | none => true
  | some c => isWS c || c == '+' || c == '>' || c == '~'

def containsRefFrom : Option Char → Chars → Bool
  | _, [] => false
  | prev, c :: cs => (c == '&' && isRefBoundary prev) || containsRefFrom (some c) cs

def containsRef (full : Chars) : Bool := containsRefFrom none full

/-- Each reference `&` is replaced by the parent full name, spliced
literally: JS `String.replace` would additionally expand `$$`/`$&`-style
patterns inside the replacement string, which no selector name arising
here contains. -/
def replaceRefsFrom (pf : Chars) : Option Char → Chars → Chars
  | _, [] => []
  | prev, c :: cs =>
    if c == '&' && isRefBoundary prev then pf ++ replaceRefsFrom pf (some c) cs
    else c :: replaceRefsFrom pf (some c) cs

def replaceRefs (pf full : Chars) : Chars := replaceRefsFrom pf none full

/-- The break condition of the ancestor walk in
`getClosestSelectorTypeFullNames`:
`parent.names.length > 1 || parent.names[0] && parent.names[0].isSelector`. -/
def closestCond (b : LeafRange) : Bool :=
  decide (1 < b.names.length) ||
    (match b.names.head? with
     | some n => n.isSelector
     | none => false)

/-- The `while (parent)` walk of `getClosestSelectorTypeFullNames` over
the parent indices.  Parent indices of blocks the scanner builds always
strictly decrease, so fuel `blocks.length + 1` is sufficient there. -/
def closestWalkF : Nat → List LeafRange → Option Nat → Option LeafRange
  | 0, _, _ => none
  | _ + 1, _, none => none
  | fuel + 1, blocks, some i =>
    match blocks[i]? with
    | none => none
    | some b => if closestCond b then some b else closestWalkF fuel blocks b.parent

/-- `getClosestSelectorTypeFullNames` of the source. -/
def getClosestSelectorTypeFullNames (blocks : List LeafRange) (current : Option Nat) :
    Option (List Chars) :=
  match closestWalkF (blocks.length + 1) blocks current with
  | none => none
  | some b => some (b.names.filterMap fun n => if n.isSelector then some n.full else none)

/-- `combineNestingNames` of the source. -/
def combineNestingNames (blocks : List LeafRange) (current : Option Nat)
    (oldNames : List LeafName) : List LeafName :=
  match getClosestSelectorTypeFullNames blocks current with
  | none => oldNames
  | some parentFullNames =>
    oldNames.flatMap fun oldName =>
      if !oldName.isSelector then [oldName]
      else if containsRef oldName.full then
        parentFullNames.map fun pf => ⟨oldName.raw, replaceRefs pf oldName.full, true⟩
      else
        parentFullNames.map fun pf => ⟨oldName.raw, pf ++ ' ' :: oldName.full, true⟩

/-! ## Block Scanner -/

def shouldIgnoreDeeply (declaration : Chars) : Bool :=
  "@keyframes".toList.isPrefixOf declaration

/-- The scanner's mutable state: the `ranges` list of all created blocks
(every created block is pushed to it), the ancestor `stack` (head is the
top), the active block `current` (as an index into `blocks`) and the
`ignoreDeep` counter. -/
structure ParserState where
  blocks : List LeafRange
  stack : List Nat
  current : Option Nat
  ignoreDeep : Nat
  deriving DecidableEq, Repr

/-- `newLeafRange` of the source (the record construction; the `stack`
push it performs is part of `stepToken`).  `s.ignoreDeep` is the counter
after the increment performed at block open. -/
def newLeafRange (languageId : Lang) (s : ParserState) (selector : Chars) (start : Nat) :
    LeafRange :=
  let names0 := parseToNames languageId s.ignoreDeep selector
  let names :=
    if languageId.supportsNesting && s.ignoreDeep == 0 && s.current.isSome then
      combineNestingNames s.blocks s.current names0
    else names0
  ⟨names, start, 0, s.current⟩

/-- The `ignoreDeep` update at block open (lines 86–88 of the source). -/
def bumpDeep (deep : Nat) (selector : Chars) : Nat :=
  if deep > 0 || shouldIgnoreDeeply selector then deep + 1 else deep

/-- The `ignoreDeep` update at block close (lines 94–96 of the source). -/
def decDeep (deep : Nat) : Nat :=
  if deep > 0 then deep - 1 else deep

/-- The stack push performed by `newLeafRange` (lines 124–127). -/
def pushStack (languageId : Lang) (s : ParserState) : List Nat :=
  match s.current with
  | some p => if languageId.supportsNesting then p :: s.stack else s.stack
  | none => s.stack

/-- Setting the active block's end at close (lines 98–99); the index is
always valid for states the scanner reaches. -/
def closeBlocks (blocks : List LeafRange) (i : Nat) (e : Nat) : List LeafRange :=
  match blocks[i]? with
  | some b => blocks.set i { b with «end» := e }
  | none => blocks

/-- The `{`-with-selector branch of the scan loop (lines 84–92; the
`ignoreDeep` increment happens before `newLeafRange` runs). -/
def openStep (languageId : Lang) (s : ParserState) (tok : Token) : ParserState :=
  { blocks := s.blocks ++
      [newLeafRange languageId
        { s with ignoreDeep := bumpDeep s.ignoreDeep (normalizeSelector tok.sel) }
        (normalizeSelector tok.sel)
        (tok.lastIndex - (normalizeSelector tok.sel).length - 1)]
    stack := pushStack languageId s
    current := some s.blocks.length
    ignoreDeep := bumpDeep s.ignoreDeep (normalizeSelector tok.sel) }

/-- The `}` branch of the scan loop (lines 93–105): decrement the deep
counter; if a block is active, set its end to `lastIndex` and, only for
nesting dialects, pop the stack into `current`. -/
def closeStep (languageId : Lang) (s : ParserState) (lastIndex : Nat) : ParserState :=
  match s.current with
  | some i =>
    if languageId.supportsNesting then
      { blocks := closeBlocks s.blocks i lastIndex, stack := s.stack.tail,
        current := s.stack.head?, ignoreDeep := decDeep s.ignoreDeep }
    else
      { blocks := closeBlocks s.blocks i lastIndex, stack := s.stack,
        current := s.current, ignoreDeep := decDeep s.ignoreDeep }
  | none => { s with ignoreDeep := decDeep s.ignoreDeep }

/-- The body of the `while (match = re.exec(text))` loop of `parse` for
one fragment match. -/
def stepToken (languageId : Lang) (s : ParserState) (tok : Token) : ParserState :=
  if tok.endChar = lbrace ∧ tok.sel ≠ [] then openStep languageId s tok
  else if tok.endChar = rbrace then closeStep languageId s tok.lastIndex
  else s

/-- Lines 108–112 of the source: at end of input, close the active block
at end-of-text if its end is unset. -/
def finishParse (textLength : Nat) (s : ParserState) : ParserState :=
  match s.current with
  | some i =>
    match s.blocks[i]? with
    | some b =>
      if b.«end» = 0 then { s with blocks := s.blocks.set i { b with «end» := textLength } }
      else s
    | none => s
  | none => s

def runTokens (languageId : Lang) (s : ParserState) (toks : List Token) : ParserState :=
  toks.foldl (stepToken languageId) s

/-- The initial condition of the scanner's instance state (fields as
initialized at construction). -/
def initState : ParserState := ⟨[], [], none, 0⟩

def parseBlocksFrom (languageId : Lang) (text : Chars) (s : ParserState) : List LeafRange :=
  (finishParse text.length (runTokens languageId s (tokenize text))).blocks

def parseBlocks (languageId : Lang) (text : Chars) : List LeafRange :=
  parseBlocksFrom languageId text initState

/-- `formatToNamedRanges` of the source; `positionAt` is modelled as the
identity on offsets. -/
def formatToNamedRanges (leafRanges : List LeafRange) : List NamedRange :=
  leafRanges.map fun b => ⟨b.names.map formatLeafNameToFullMainName, (b.start, b.«end»)⟩

/-- A whole `parse()` invocation starting from scanner state `s`
(`ranges` is a local of `parse` and always starts empty; the instance
fields `stack`, `current`, `ignoreDeep` start at whatever `s` holds). -/
def parseFrom (languageId : Lang) (text : Chars) (s : ParserState) : List NamedRange :=
  formatToNamedRanges (parseBlocksFrom languageId text s)

/-- `parse()` on a freshly constructed parser. -/
def parse (languageId : Lang) (text : Chars) : List NamedRange :=
  formatToNamedRanges (parseBlocks languageId text)

/-! ## Reference definitions for the Nesting Resolver claim -/

/-- Modelled from the spec wording of the Nesting Resolver: the
ancestor-selection test as the claim states it — the Name list contains
at least one Name with `isSelector = true`. -/
def specClosestCond (b : LeafRange) : Bool :=
  b.names.any fun n => n.isSelector

/-- The ancestor walk as the claim states it, over the same parent-index
representation as `closestWalkF`. -/
def specClosestWalkF : Nat → List LeafRange → Option Nat → Option LeafRange
  | 0, _, _ => none
  | _ + 1, _, none => none
  | fuel + 1, blocks, some i =>
    match blocks[i]? with
    | none => none
    | some b => if specClosestCond b then some b else specClosestWalkF fuel blocks b.parent

def specGetClosestSelectorTypeFullNames (blocks : List LeafRange) (current : Option Nat) :
    Option (List Chars) :=
  match specClosestWalkF (blocks.length + 1) blocks current with
  | none => none
  | some b => some (b.names.filterMap fun n => if n.isSelector then some n.full else none)

/-- Nesting resolution as the claim states it: combine with the nearest
ancestor carrying a selector-type Name, childNames unchanged when none
exists. -/
def specCombineNestingNames (blocks : List LeafRange) (current : Option Nat)
    (oldNames : List LeafName) : List LeafName :=
  match specGetClosestSelectorTypeFullNames blocks current with
  | none => oldNames
  | some parentFullNames =>
    oldNames.flatMap fun oldName =>
      if !oldName.isSelector then [oldName]
      else if containsRef oldName.full then
        parentFullNames.map fun pf => ⟨oldName.raw, replaceRefs pf oldName.full, true⟩
      else
        parentFullNames.map fun pf => ⟨oldName.raw, pf ++ ' ' :: oldName.full, true⟩

/-! ## Analysis predicates for the scanner -/

/-- Tokens on which the scanner opens a block: terminator `{` with a
non-empty (raw) preceding fragment. -/
def isOpenTok (t : Token) : Bool :=
  decide (t.endChar = lbrace ∧ t.sel ≠ [])

def openSelTokens (toks : List Token) : List Token :=
  toks.filter isOpenTok

/-- Well-formedness of a token stream produced by the tokenizer relative
to a lower position bound `lo` and the text length `hi`: each token's
`lastIndex` leaves room for its fragment and terminator after the
previous position, and stays within the text. -/
def TokensWF (lo hi : Nat) : List Token → Prop
  | [] => True
  | t :: ts => lo + t.sel.length + 1 ≤ t.lastIndex ∧ t.lastIndex ≤ hi ∧ TokensWF t.lastIndex hi ts

/-- The chain of currently open blocks, innermost first: the active
block followed by the ancestor stack (top first). -/
def currentChain (s : ParserState) : List Nat :=
  s.current.toList ++ s.stack

/-- Chain discipline of a nesting-dialect scan: the stack is empty when
no block is active; every chain entry is an open block whose stored
parent is the next chain entry. -/
def ChainInv (s : ParserState) : Prop :=
  (s.current = none → s.stack = []) ∧
  (∀ k j, (currentChain s)[k]? = some j →
    ∃ b, s.blocks[j]? = some b ∧ b.«end» = 0 ∧ b.parent = (currentChain s)[k + 1]?)

/-- The scan-loop invariant at position bound `lo` (all text consumed so
far lies before `lo`): starts lie before `lo`; set ends lie after their
start and before `lo`; parents are earlier blocks that start no later;
the active index is valid; for nesting dialects the chain discipline
holds and a block closes no later than its parent. -/
def ScanInv (nesting : Bool) (lo : Nat) (s : ParserState) : Prop :=
  (∀ (i : Nat) (b : LeafRange), s.blocks[i]? = some b → b.start < lo) ∧
  (∀ (i : Nat) (b : LeafRange), s.blocks[i]? = some b →
    b.«end» = 0 ∨ (b.start < b.«end» ∧ b.«end» ≤ lo)) ∧
  (∀ (i : Nat) (b : LeafRange), s.blocks[i]? = some b → ∀ j, b.parent = some j →
    j < i ∧ ∃ pb, s.blocks[j]? = some pb ∧ pb.start ≤ b.start) ∧
  (∀ i, s.current = some i → i < s.blocks.length) ∧
  (nesting = true → ChainInv s) ∧
  (nesting = true → ∀ (i : Nat) (b : LeafRange) (j : Nat) (pb : LeafRange),
    s.blocks[i]? = some b → b.parent = some j →
    s.blocks[j]? = some pb → pb.«end» ≠ 0 → b.«end» ≠ 0 → b.«end» ≤ pb.«end»)

/-! ## Sanity checks (concrete evaluations of the embedding) -/

example : tokenize ".a \x7b color: red; \x7d".toList =
    [⟨".a ".toList, lbrace, 4⟩, ⟨"color: red".toList, ';', 16⟩, ⟨[], rbrace, 18⟩] := by
  decide

example : tokenize "(a;b)\x7bx\x7d".toList =
    [⟨"(a;b)".toList, lbrace, 6⟩, ⟨['x'], rbrace, 8⟩] := by
  decide

example : tokenize "(a\x7bb)".toList = [⟨"(a".toList, lbrace, 3⟩] := by
  decide

example : parse .css ".a \x7b color: red; \x7d".toList =
    [⟨[⟨".a".toList, ".a".toList⟩], (1, 18)⟩] := by
  decide

example : (parse .scss ".a \x7b .b \x7b color: blue; \x7d \x7d".toList).map
      (fun r => r.names) =
    [[⟨".a".toList, ".a".toList⟩], [⟨".a .b".toList, ".b".toList⟩]] := by
  decide

example : parse .scss ".a \x7b &:hover \x7b color: red; \x7d \x7d".toList =
    [⟨[⟨".a".toList, ".a".toList⟩], (1, 30)⟩,
     ⟨[⟨".a:hover".toList, []⟩], (6, 28)⟩] := by
  decide

example : (parse .css "a\x7b\x7d \x7d".toList).map (fun r => r.range) = [(0, 5)] := by
  decide

example : (parse .css "a\x7b\x7d".toList).map (fun r => r.range) = [(0, 3)] := by
  decide

example : (parse .scss " .a\x7b.b\x7b".toList).map (fun r => r.range) =
    [(1, 0), (4, 7)] := by
  decide

example : (parseBlocks .css "a\x7b\x7d b\x7b\x7d".toList).map
      (fun b => (b.start, b.«end», b.parent)) =
    [(0, 3, none), (4, 7, some 0)] := by
  decide

example : (parseBlocks .scss "@keyframes-custom x\x7bfrom\x7b\x7d\x7d".toList).map
      (fun b => b.names.map (fun n => (n.full, n.isSelector))) =
    [[("@keyframes-custom x".toList, false)], [("from".toList, false)]] := by
  decide

example : (parseBlocks .scss "@-webkit-keyframes spin\x7bfrom\x7b\x7d\x7d".toList).map
      (fun b => b.names.map (fun n => (n.full, n.isSelector))) =
    [[("@-webkit-keyframes spin".toList, false)], [("from".toList, true)]] := by
  decide

example : (parse .scss "@-webkit-keyframes spin\x7bfrom\x7b\x7d\x7d".toList).map
      (fun r => r.names.map (fun n => n.main)) =
    [[[]], ["from".toList]] := by
  decide


/-! ## Helper lemmas: lists and normalization -/

theorem dropWhileLengthLe (p : Char → Bool) (l : Chars) :
    (l.dropWhile p).length ≤ l.length := by
  conv_rhs => rw [← List.takeWhile_append_dropWhile p l]
  rw [List.length_append]
  omega

theorem collapseWSAuxLengthLe (s : Chars) : ∀ b : Bool, (collapseWSAux b s).length ≤ s.length := by
  induction s with
  | nil => intro b; simp [collapseWSAux]
  | cons c cs ih =>
    intro b
    rw [collapseWSAux]
    by_cases h : isWS c = true
    · rw [if_pos h]
      cases b with
      | true => simpa using Nat.le_succ_of_le (ih true)
      | false => simpa using ih true
    · rw [if_neg h]
      simpa using ih false

theorem trimRightListLengthLe (s : Chars) : (trimRightList s).length ≤ s.length := by
  rw [trimRightList, List.length_reverse]
  calc (s.reverse.dropWhile fun c => isWS c).length ≤ s.reverse.length :=
        dropWhileLengthLe _ _
    _ = s.length := List.length_reverse s

theorem normalizeSelectorLengthLe (s : Chars) : (normalizeSelector s).length ≤ s.length :=
  le_trans (collapseWSAuxLengthLe _ false) (trimRightListLengthLe s)

theorem firstSomeEqSome {α β : Type} (f : α → Option β) :
    ∀ (l : List α) (b : β), firstSome f l = some b → ∃ a ∈ l, f a = some b := by
  intro l
  induction l with
  | nil => intro b h; simp [firstSome] at h
  | cons a as ih =>
    intro b h
    rw [firstSome] at h
    cases hfa : f a with
    | some b0 =>
      rw [hfa] at h
      exact ⟨a, by simp, by rw [hfa]; exact h⟩
    | none =>
      rw [hfa] at h
      obtain ⟨a', ha', hfa'⟩ := ih b h
      exact ⟨a', by simp [ha'], hfa'⟩

theorem firstSomeCongr {α β : Type} (f g : α → Option β) :
    ∀ (l : List α), (∀ a ∈ l, f a = g a) → firstSome f l = firstSome g l := by
  intro l
  induction l with
  | nil => intro _; rfl
  | cons a as ih =>
    intro h
    rw [firstSome, firstSome, h a (by simp)]
    cases g a with
    | some b => rfl
    | none => exact ih fun a' ha' => h a' (by simp [ha'])

theorem atomicSplitsSuffix (close : Char) (nl : Bool) :
    ∀ (cs s : Chars), s ∈ atomicSplits close nl cs → ∃ t1, cs = t1 ++ s ∧ 0 < t1.length := by
  intro cs
  induction cs with
  | nil => intro s hs; simp [atomicSplits] at hs
  | cons c cs ih =>
    intro s hs
    rw [atomicSplits] at hs
    by_cases h1 : (nl && isLineTerm c) = true
    · rw [if_pos h1] at hs; simp at hs
    · rw [if_neg h1] at hs
      by_cases h2 : c = close
      · rw [if_pos h2] at hs
        rcases List.mem_cons.mp hs with h | h
        · exact ⟨[c], by simp [h], by simp⟩
        · obtain ⟨t1, ht, hl⟩ := ih s h
          exact ⟨c :: t1, by simp [ht], by simp⟩
      · rw [if_neg h2] at hs
        obtain ⟨t1, ht, hl⟩ := ih s hs
        exact ⟨c :: t1, by simp [ht], by simp⟩

theorem fragAtomicsSuffix (c : Char) (cs tail : Chars) (h : tail ∈ fragAtomics c cs) :
    ∃ t1, cs = t1 ++ tail ∧ 0 < t1.length := by
  rw [fragAtomics] at h
  split at h
  · exact atomicSplitsSuffix _ _ cs tail h
  · split at h
    · exact atomicSplitsSuffix _ _ cs tail h
    · split at h
      · exact atomicSplitsSuffix _ _ cs tail h
      · simp at h

/-! ## Helper lemmas: the fragment search -/

/-- Decomposition: a successful fragment search consumes an initial
segment of the text ending at a terminator character. -/
theorem fragSearchFDecomp :
    ∀ (fuel : Nat) (cs f : Chars) (t : Char) (r : Chars),
      fragSearchF fuel cs = some (f, t, r) → cs = f ++ t :: r ∧ isTerm t = true := by
  intro fuel
  induction fuel with
  | zero => intro cs f t r h; simp [fragSearchF] at h
  | succ n ih =>
    intro cs f t r h
    cases cs with
    | nil => simp [fragSearchF] at h
    | cons c cs' =>
      rw [fragSearchF] at h
      by_cases hterm : isTerm c = true
      · rw [if_pos hterm] at h
        simp only [Option.some.injEq, Prod.mk.injEq] at h
        obtain ⟨hf, ht, hr⟩ := h
        subst hf; subst ht; subst hr
        exact ⟨rfl, hterm⟩
      · rw [if_neg hterm] at h
        cases hfs : firstSome (fun tail =>
            match fragSearchF n tail with
            | some (f, t, r) => some (c :: (cs'.take (cs'.length - tail.length) ++ f), t, r)
            | none => none) (fragAtomics c cs') with
        | some res =>
          rw [hfs] at h
          simp only [Option.some.injEq] at h
          subst h
          obtain ⟨tail, htail, hF⟩ := firstSomeEqSome _ _ _ hfs
          cases hin : fragSearchF n tail with
          | none => rw [hin] at hF; simp at hF
          | some v =>
            obtain ⟨f0, t0, r0⟩ := v
            rw [hin] at hF
            simp only [Option.some.injEq, Prod.mk.injEq] at hF
            obtain ⟨hf, ht, hr⟩ := hF
            subst hf; subst ht; subst hr
            obtain ⟨hdec, hterm0⟩ := ih tail f0 t0 r0 hin
            obtain ⟨t1, ht1, _⟩ := fragAtomicsSuffix c cs' tail htail
            have hlen : cs'.length - tail.length = t1.length := by
              subst ht1; rw [List.length_append]; omega
            have htake : cs'.take (cs'.length - tail.length) = t1 := by
              rw [hlen, ht1, List.take_left]
            refine ⟨?_, hterm0⟩
            rw [htake, ht1, hdec]
            simp
        | none =>
          rw [hfs] at h
          cases hin : fragSearchF n cs' with
          | none => rw [hin] at h; simp at h
          | some v =>
            obtain ⟨f0, t0, r0⟩ := v
            rw [hin] at h
            simp only [Option.some.injEq, Prod.mk.injEq] at h
            obtain ⟨hf, ht, hr⟩ := h
            subst hf; subst ht; subst hr
            obtain ⟨hdec, hterm0⟩ := ih cs' f0 t0 r0 hin
            exact ⟨by rw [hdec]; simp, hterm0⟩

/-- Above the sufficient bound, the fuel does not matter. -/
theorem fragSearchFFuelEq :
    ∀ (fuel1 fuel2 : Nat) (cs : Chars), cs.length < fuel1 → cs.length < fuel2 →
      fragSearchF fuel1 cs = fragSearchF fuel2 cs := by
  intro fuel1
  induction fuel1 with
  | zero => intro fuel2 cs h1 _; omega
  | succ n ih =>
    intro fuel2 cs h1 h2
    cases fuel2 with
    | zero => omega
    | succ m =>
      cases cs with
      | nil => rfl
      | cons c cs' =>
        have hn : cs'.length < n := by simp at h1; omega
        have hm : cs'.length < m := by simp at h2; omega
        rw [fragSearchF]
        conv_rhs => rw [fragSearchF]
        by_cases hterm : isTerm c = true
        · rw [if_pos hterm, if_pos hterm]
        · rw [if_neg hterm, if_neg hterm]
          have hcong : firstSome (fun tail =>
              match fragSearchF n tail with
              | some (f, t, r) => some (c :: (cs'.take (cs'.length - tail.length) ++ f), t, r)
              | none => none) (fragAtomics c cs') = firstSome (fun tail =>
              match fragSearchF m tail with
              | some (f, t, r) => some (c :: (cs'.take (cs'.length - tail.length) ++ f), t, r)
              | none => none) (fragAtomics c cs') := by
            apply firstSomeCongr
            intro tail htail
            obtain ⟨t1, ht1, hl1⟩ := fragAtomicsSuffix c cs' tail htail
            have htl : tail.length < cs'.length := by
              subst ht1; rw [List.length_append]; omega
            rw [ih m tail (by omega) (by omega)]
          rw [hcong]
          cases hres : firstSome (fun tail =>
              match fragSearchF m tail with
              | some (f, t, r) => some (c :: (cs'.take (cs'.length - tail.length) ++ f), t, r)
              | none => none) (fragAtomics c cs') with
          | some res => rfl
          | none => rw [ih m cs' hn hm]

theorem fragSearchDecomp (cs f : Chars) (t : Char) (r : Chars)
    (h : fragSearch cs = some (f, t, r)) : cs = f ++ t :: r ∧ isTerm t = true :=
  fragSearchFDecomp _ cs f t r h

/-! ## Helper lemmas: one exec step and the token stream -/

theorem findBlockCommentEndSpec :
    ∀ (rest r : Chars), findBlockCommentEnd rest = some r →
      ∃ mid, rest = mid ++ '*' :: '/' :: r := by
  intro rest
  induction rest with
  | nil => intro r h; simp [findBlockCommentEnd] at h
  | cons c cs ih =>
    intro r h
    rw [findBlockCommentEnd] at h
    by_cases hc : c = '*' ∧ cs.head? = some '/'
    · rw [if_pos hc] at h
      obtain ⟨hc1, hc2⟩ := hc
      cases cs with
      | nil => simp at hc2
      | cons d tl =>
        simp only [List.head?_cons, Option.some.injEq] at hc2
        simp only [List.tail_cons, Option.some.injEq] at h
        subst hc1; subst hc2; subst h
        exact ⟨[], rfl⟩
    · rw [if_neg hc] at h
      obtain ⟨mid, hmid⟩ := ih r h
      exact ⟨c :: mid, by simp [hmid]⟩

theorem fragStepSpec (pos1 : Nat) (cs1 : Chars) (ot : Option Token) (pos' : Nat) (cs' : Chars)
    (h : fragStep pos1 cs1 = some (ot, pos', cs')) :
    ∃ f t, cs1 = f ++ t :: cs' ∧ isTerm t = true ∧
      ot = some ⟨f, t, pos1 + f.length + 1⟩ ∧ pos' = pos1 + f.length + 1 := by
  rw [fragStep] at h
  cases hfs : fragSearch cs1 with
  | none => rw [hfs] at h; simp at h
  | some v =>
    obtain ⟨f, t, r⟩ := v
    rw [hfs] at h
    simp only [Option.some.injEq, Prod.mk.injEq] at h
    obtain ⟨hot, hpos, hr⟩ := h
    subst hr
    obtain ⟨hdec, hterm⟩ := fragSearchDecomp cs1 f t r hfs
    exact ⟨f, t, hdec, hterm, hot.symm, hpos.symm⟩

/-- Consumption specification of one exec step: the step consumes a
non-empty prefix `pre2` of the text, and an emitted token's `lastIndex`
points one past its terminator character, which is the last consumed
character. -/
theorem matchStepSpec (pos : Nat) (cs : Chars) (ot : Option Token) (pos' : Nat) (cs' : Chars)
    (h : matchStep pos cs = some (ot, pos', cs')) :
    ∃ pre2, cs = pre2 ++ cs' ∧ pos' = pos + pre2.length ∧ 0 < pre2.length ∧
      ∀ t, ot = some t → t.lastIndex = pos' ∧ pos + t.sel.length + 1 ≤ pos' ∧
        ∃ pre, pre2 = pre ++ [t.endChar] := by
  have hfragcase : ∀ (cs1 : Chars), cs.dropWhile (fun c => isWS c) = cs1 →
      fragStep (pos + (cs.length - cs1.length)) cs1 = some (ot, pos', cs') →
      ∃ pre2, cs = pre2 ++ cs' ∧ pos' = pos + pre2.length ∧ 0 < pre2.length ∧
        ∀ t, ot = some t → t.lastIndex = pos' ∧ pos + t.sel.length + 1 ≤ pos' ∧
          ∃ pre, pre2 = pre ++ [t.endChar] := by
    intro cs1 hcs1 hfs
    obtain ⟨f, t, hdec, _, hot, hpos⟩ := fragStepSpec _ _ _ _ _ hfs
    obtain ⟨tw, htw⟩ : ∃ tw, tw ++ cs1 = cs :=
      ⟨_, by rw [← hcs1]; exact List.takeWhile_append_dropWhile _ _⟩
    have hlen : cs.length = tw.length + cs1.length := by rw [← htw]; simp
    have hlen1 : cs1.length = f.length + 1 + cs'.length := by
      rw [hdec]; simp only [List.length_append, List.length_cons]; omega
    refine ⟨tw ++ f ++ [t], ?_, ?_, ?_, ?_⟩
    · rw [← htw, hdec]; simp
    · rw [hpos]
      simp only [List.length_append, List.length_cons, List.length_nil]
      omega
    · simp
    · intro t0 ht0
      rw [hot] at ht0
      have ht0' : t0 = ⟨f, t, pos + (cs.length - cs1.length) + f.length + 1⟩ :=
        (Option.some.inj ht0).symm
      subst ht0'
      refine ⟨by rw [hpos], ?_, tw ++ f, by simp⟩
      show pos + f.length + 1 ≤ pos'
      omega
  rw [matchStep] at h
  cases hcs1 : cs.dropWhile (fun c => isWS c) with
  | nil =>
    rw [hcs1] at h
    simp only [] at h
    exact hfragcase [] hcs1 h
  | cons c tail =>
    cases tail with
    | nil =>
      rw [hcs1] at h
      simp only [] at h
      exact hfragcase [c] hcs1 h
    | cons d rest =>
      rw [hcs1] at h
      simp only [] at h
      by_cases h1 : c = '/' ∧ d = '/'
      · rw [if_pos h1] at h
        simp only [Option.some.injEq, Prod.mk.injEq] at h
        obtain ⟨hot, hpos, hcs'⟩ := h
        obtain ⟨tw, htw⟩ : ∃ tw, tw ++ (c :: d :: rest) = cs :=
          ⟨_, by rw [← hcs1]; exact List.takeWhile_append_dropWhile _ _⟩
        obtain ⟨tk, htk⟩ : ∃ tk, tk ++ cs' = rest :=
          ⟨_, by rw [← hcs']; exact List.takeWhile_append_dropWhile _ _⟩
        have hl1 : cs.length = tw.length + (2 + rest.length) := by
          rw [← htw]; simp only [List.length_append, List.length_cons]; omega
        have hl2 : rest.length = tk.length + cs'.length := by rw [← htk]; simp
        have hl3 : cs'.length = (rest.dropWhile (fun e => !(isLineTerm e))).length := by
          rw [hcs']
        refine ⟨tw ++ c :: d :: tk, ?_, ?_, ?_, ?_⟩
        · rw [← htw, ← htk]; simp
        · rw [← hpos]
          simp only [List.length_append, List.length_cons]
          omega
        · simp
        · intro t0 ht0; rw [← hot] at ht0; simp at ht0
      · rw [if_neg h1] at h
        by_cases h2 : c = '/' ∧ d = '*'
        · rw [if_pos h2] at h
          cases hfb : findBlockCommentEnd rest with
          | some r =>
            rw [hfb] at h
            simp only [Option.some.injEq, Prod.mk.injEq] at h
            obtain ⟨hot, hpos, hcs'⟩ := h
            subst hcs'
            obtain ⟨mid, hmid⟩ := findBlockCommentEndSpec rest r hfb
            obtain ⟨tw, htw⟩ : ∃ tw, tw ++ (c :: d :: rest) = cs :=
              ⟨_, by rw [← hcs1]; exact List.takeWhile_append_dropWhile _ _⟩
            have hl1 : cs.length = tw.length + (2 + rest.length) := by
              rw [← htw]; simp only [List.length_append, List.length_cons]; omega
            have hl2 : rest.length = mid.length + 2 + r.length := by
              rw [hmid]; simp only [List.length_append, List.length_cons]; omega
            refine ⟨tw ++ c :: d :: (mid ++ ['*', '/']), ?_, ?_, ?_, ?_⟩
            · rw [← htw, hmid]; simp
            · rw [← hpos]
              simp only [List.length_append, List.length_cons, List.length_nil]
              omega
            · simp
            · intro t0 ht0; rw [← hot] at ht0; simp at ht0
          | none =>
            rw [hfb] at h
            exact hfragcase (c :: d :: rest) hcs1 h
        · rw [if_neg h2] at h
          exact hfragcase (c :: d :: rest) hcs1 h

theorem tokensWFMono (hi : Nat) :
    ∀ (ts : List Token) (lo lo' : Nat), TokensWF lo' hi ts → lo ≤ lo' → TokensWF lo hi ts := by
  intro ts
  cases ts with
  | nil => intro lo lo' _ _; trivial
  | cons t ts =>
    intro lo lo' h hle
    obtain ⟨h1, h2, h3⟩ := h
    exact ⟨by omega, h2, h3⟩

/-- The token stream emitted from position `pos` is well-formed between
`pos` and `pos + cs.length`. -/
theorem tokenizeFWF :
    ∀ (fuel pos : Nat) (cs : Chars), TokensWF pos (pos + cs.length) (tokenizeF fuel pos cs) := by
  intro fuel
  induction fuel with
  | zero => intro pos cs; trivial
  | succ n ih =>
    intro pos cs
    cases hms : matchStep pos cs with
    | none =>
      have hre : tokenizeF (n + 1) pos cs = [] := by rw [tokenizeF, hms]
      rw [hre]
      trivial
    | some v =>
      obtain ⟨ot, pos', cs'⟩ := v
      obtain ⟨pre2, hpre, hpos, hlen, htok⟩ := matchStepSpec pos cs ot pos' cs' hms
      have hcsl : cs.length = pre2.length + cs'.length := by rw [hpre]; simp
      have heq : pos' + cs'.length = pos + cs.length := by omega
      cases ot with
      | none =>
        have hre : tokenizeF (n + 1) pos cs = tokenizeF n pos' cs' := by rw [tokenizeF, hms]
        rw [hre]
        have hwf := ih pos' cs'
        rw [heq] at hwf
        exact tokensWFMono _ _ pos pos' hwf (by omega)
      | some t =>
        have hre : tokenizeF (n + 1) pos cs = t :: tokenizeF n pos' cs' := by
          rw [tokenizeF, hms]
        rw [hre]
        obtain ⟨hlast, hsel, pre, hpre2⟩ := htok t rfl
        have hwf := ih pos' cs'
        rw [heq] at hwf
        exact ⟨by omega, by omega, by rw [hlast]; exact hwf⟩

theorem tokenizeWF (text : Chars) : TokensWF 0 text.length (tokenize text) := by
  have h := tokenizeFWF (text.length + 1) 0 text
  simpa using h

theorem tokensWFMem (hi : Nat) :
    ∀ (ts : List Token) (lo : Nat), TokensWF lo hi ts →
      ∀ t ∈ ts, lo + t.sel.length + 1 ≤ t.lastIndex ∧ t.lastIndex ≤ hi := by
  intro ts
  induction ts with
  | nil => intro lo _ t ht; simp at ht
  | cons t0 ts ih =>
    intro lo h t ht
    obtain ⟨h1, h2, h3⟩ := h
    rcases List.mem_cons.mp ht with rfl | hmem
    · exact ⟨h1, h2⟩
    · obtain ⟨ha, hb⟩ := ih t0.lastIndex h3 t hmem
      exact ⟨by omega, hb⟩

/-- Every emitted token's terminator character sits at offset
`lastIndex - 1` of the text. -/
theorem tokenizeFEndChar :
    ∀ (fuel pos : Nat) (cs text : Chars), cs = text.drop pos →
      ∀ t ∈ tokenizeF fuel pos cs, text[t.lastIndex - 1]? = some t.endChar := by
  intro fuel
  induction fuel with
  | zero => intro pos cs text _ t ht; simp [tokenizeF] at ht
  | succ n ih =>
    intro pos cs text hdrop t ht
    cases hms : matchStep pos cs with
    | none =>
      have hre : tokenizeF (n + 1) pos cs = [] := by rw [tokenizeF, hms]
      rw [hre] at ht
      simp at ht
    | some v =>
      obtain ⟨ot, pos', cs'⟩ := v
      obtain ⟨pre2, hpre, hpos, hlen, htok⟩ := matchStepSpec pos cs ot pos' cs' hms
      have hdrop' : cs' = text.drop pos' := by
        rw [hpos, ← List.drop_drop, ← hdrop, hpre, List.drop_left]
      cases ot with
      | none =>
        have hre : tokenizeF (n + 1) pos cs = tokenizeF n pos' cs' := by rw [tokenizeF, hms]
        rw [hre] at ht
        exact ih pos' cs' text hdrop' t ht
      | some t0 =>
        have hre : tokenizeF (n + 1) pos cs = t0 :: tokenizeF n pos' cs' := by
          rw [tokenizeF, hms]
        rw [hre] at ht
        rcases List.mem_cons.mp ht with rfl | hmem
        · obtain ⟨hlast, hsel, pre, hpre2⟩ := htok t rfl
          have h1 : (text.drop pos)[pre.length]? = some t.endChar := by
            rw [← hdrop, hpre, hpre2, List.append_assoc,
              List.getElem?_append_right (le_refl pre.length)]
            simp
          rw [List.getElem?_drop] at h1
          have hidx : t.lastIndex - 1 = pos + pre.length := by
            have hp2 : pre2.length = pre.length + 1 := by rw [hpre2]; simp
            omega
          rw [hidx]
          exact h1
        · exact ih pos' cs' text hdrop' t hmem

theorem tokenizeEndChar (text : Chars) (t : Token) (ht : t ∈ tokenize text) :
    text[t.lastIndex - 1]? = some t.endChar :=
  tokenizeFEndChar _ 0 text text (by simp) t ht

/-! ## Helper lemmas: block starts -/

theorem setPreservesMapStart (blocks : List LeafRange) (i : Nat) (b : LeafRange) (e : Nat)
    (hb : blocks[i]? = some b) :
    (blocks.set i { b with «end» := e }).map (fun x => x.start) =
      blocks.map (fun x => x.start) := by
  apply List.ext_getElem?
  intro n
  rw [List.getElem?_map, List.getElem?_map]
  by_cases hn : i = n
  · subst hn
    obtain ⟨hlt, _⟩ := List.getElem?_eq_some.mp hb
    rw [List.getElem?_set_self hlt, hb]
    rfl
  · rw [List.getElem?_set_ne hn]

/-- One scan step appends exactly one block start (computed from the
token) on an opening token and preserves all existing block starts. -/
theorem stepTokenMapStart (languageId : Lang) (s : ParserState) (tok : Token) :
    (stepToken languageId s tok).blocks.map (fun b => b.start) =
      s.blocks.map (fun b => b.start) ++
        (if isOpenTok tok = true then [tok.lastIndex - (normalizeSelector tok.sel).length - 1]
         else []) := by
  have hopen : isOpenTok tok = true ↔ (tok.endChar = lbrace ∧ tok.sel ≠ []) := by
    rw [isOpenTok]; exact decide_eq_true_iff
  have hclose : ∀ e, (closeStep languageId s e).blocks.map (fun b => b.start) =
      s.blocks.map (fun b => b.start) := by
    intro e
    rw [closeStep]
    cases hc : s.current with
    | none => rfl
    | some i =>
      have hcb : (closeBlocks s.blocks i e).map (fun b => b.start) =
          s.blocks.map (fun b => b.start) := by
        rw [closeBlocks]
        cases hbi : s.blocks[i]? with
        | none => rfl
        | some b => exact setPreservesMapStart s.blocks i b e hbi
      simp only []
      by_cases hn : languageId.supportsNesting = true
      · rw [if_pos hn]
        exact hcb
      · rw [if_neg hn]
        exact hcb
  unfold stepToken
  by_cases h1 : tok.endChar = lbrace ∧ tok.sel ≠ []
  · rw [if_pos h1, if_pos (hopen.mpr h1)]
    simp [openStep, newLeafRange]
  · rw [if_neg h1, if_neg (fun hh => h1 (hopen.mp hh)), List.append_nil]
    by_cases h2 : tok.endChar = rbrace
    · rw [if_pos h2]
      exact hclose tok.lastIndex
    · rw [if_neg h2]

theorem runTokensMapStart (languageId : Lang) :
    ∀ (toks : List Token) (s : ParserState),
      (runTokens languageId s toks).blocks.map (fun b => b.start) =
        s.blocks.map (fun b => b.start) ++
          (openSelTokens toks).map
            (fun t => t.lastIndex - (normalizeSelector t.sel).length - 1) := by
  intro toks
  induction toks with
  | nil => intro s; simp [runTokens, openSelTokens]
  | cons t ts ih =>
    intro s
    show (runTokens languageId (stepToken languageId s t) ts).blocks.map (fun b => b.start) = _
    rw [ih, stepTokenMapStart]
    by_cases hop : isOpenTok t = true
    · simp [openSelTokens, List.filter_cons, hop, List.append_assoc]
    · simp [openSelTokens, List.filter_cons, hop, List.append_assoc]

theorem finishMapStart (textLength : Nat) (s : ParserState) :
    (finishParse textLength s).blocks.map (fun b => b.start) =
      s.blocks.map (fun b => b.start) := by
  rw [finishParse]
  cases hc : s.current with
  | none => rfl
  | some i =>
    simp only []
    cases hbi : s.blocks[i]? with
    | none => rfl
    | some b =>
      simp only []
      by_cases he : b.«end» = 0
      · rw [if_pos he]
        exact setPreservesMapStart s.blocks i b textLength hbi
      · rw [if_neg he]

/-- Block starts of a parse, in order: one per opening token, each equal
to the token's `lastIndex` minus the normalized selector length minus
one. -/
theorem parseBlocksMapStart (languageId : Lang) (text : Chars) :
    (parseBlocks languageId text).map (fun b => b.start) =
      (openSelTokens (tokenize text)).map
        (fun t => t.lastIndex - (normalizeSelector t.sel).length - 1) := by
  rw [parseBlocks, parseBlocksFrom, finishMapStart, runTokensMapStart]
  rfl

/-! ## Helper lemmas: the scan invariant -/

theorem getAppendLeft {α : Type} (l1 l2 : List α) (n : Nat) (h : n < l1.length) :
    (l1 ++ l2)[n]? = l1[n]? := by
  rw [List.getElem?_append]
  rw [if_pos h]

theorem newLeafRangeStart (languageId : Lang) (s : ParserState) (sel : Chars) (st : Nat) :
    (newLeafRange languageId s sel st).start = st := rfl

theorem newLeafRangeEnd (languageId : Lang) (s : ParserState) (sel : Chars) (st : Nat) :
    (newLeafRange languageId s sel st).«end» = 0 := rfl

theorem newLeafRangeParent (languageId : Lang) (s : ParserState) (sel : Chars) (st : Nat) :
    (newLeafRange languageId s sel st).parent = s.current := rfl

theorem currentChainHead (s : ParserState) (hd1 : s.current = none → s.stack = []) :
    (currentChain s)[0]? = s.current := by
  rw [currentChain]
  cases hc : s.current with
  | none => rw [hd1 hc]; rfl
  | some p => simp

/-- Along the open-block chain, indices strictly decrease (each entry's
parent is the next entry, and parents are earlier blocks). -/
theorem chainStep (s : ParserState)
    (hc2 : ∀ k j, (currentChain s)[k]? = some j →
      ∃ b, s.blocks[j]? = some b ∧ b.«end» = 0 ∧ b.parent = (currentChain s)[k + 1]?)
    (hpar : ∀ (i : Nat) (b : LeafRange), s.blocks[i]? = some b → ∀ j, b.parent = some j →
      j < i ∧ ∃ pb, s.blocks[j]? = some pb ∧ pb.start ≤ b.start) :
    ∀ k a b, (currentChain s)[k]? = some a → (currentChain s)[k + 1]? = some b → b < a := by
  intro k a b hka hkb
  obtain ⟨ba, hba, _, hpa⟩ := hc2 k a hka
  rw [hkb] at hpa
  exact (hpar a ba hba b hpa).1

theorem chainLt (s : ParserState)
    (hdec : ∀ k a b, (currentChain s)[k]? = some a → (currentChain s)[k + 1]? = some b → b < a) :
    ∀ m a b, (currentChain s)[0]? = some a → (currentChain s)[m + 1]? = some b → b < a := by
  intro m
  induction m with
  | zero => intro a b h0 h1; exact hdec 0 a b h0 h1
  | succ m ih =>
    intro a b h0 h1
    have hm : m + 1 < (currentChain s).length := by
      obtain ⟨hlt, _⟩ := List.getElem?_eq_some.mp h1
      omega
    obtain ⟨c, hc⟩ : ∃ c, (currentChain s)[m + 1]? = some c :=
      ⟨_, List.getElem?_eq_getElem hm⟩
    exact lt_trans (hdec (m + 1) c b hc h1) (ih a c h0 hc)

/-- For a nesting-dialect state satisfying the invariant, the active
block's parent, if any, is still open. -/
theorem chainParentOpen (s : ParserState)
    (hchain : ChainInv s)
    (i : Nat) (hc : s.current = some i)
    (b : LeafRange) (hbi : s.blocks[i]? = some b) (j : Nat) (hj : b.parent = some j) :
    ∃ pb, s.blocks[j]? = some pb ∧ pb.«end» = 0 := by
  obtain ⟨hd1, hd2⟩ := hchain
  have h0 : (currentChain s)[0]? = some i := by rw [currentChainHead s hd1, hc]
  obtain ⟨b0, hb0, _, hpar0⟩ := hd2 0 i h0
  rw [hbi] at hb0
  have hb0' : b0 = b := (Option.some.inj hb0).symm
  subst hb0'
  rw [hj] at hpar0
  obtain ⟨pb, hpb, hpbe, _⟩ := hd2 1 j hpar0.symm
  exact ⟨pb, hpb, hpbe⟩

theorem scanInvMono (nesting : Bool) (lo lo' : Nat) (s : ParserState)
    (hs : ScanInv nesting lo s) (hle : lo ≤ lo') : ScanInv nesting lo' s := by
  obtain ⟨ha, hb, hc, he, hch, hf⟩ := hs
  refine ⟨fun i b h => lt_of_lt_of_le (ha i b h) hle, fun i b h => ?_, hc, he, hch, hf⟩
  rcases hb i b h with h0 | ⟨h1, h2⟩
  · exact Or.inl h0
  · exact Or.inr ⟨h1, le_trans h2 hle⟩

theorem initStateInv (nesting : Bool) : ScanInv nesting 0 initState := by
  refine ⟨?_, ?_, ?_, ?_, ?_, ?_⟩
  · intro i b h; simp [initState] at h
  · intro i b h; simp [initState] at h
  · intro i b h; simp [initState] at h
  · intro i h; simp [initState] at h
  · intro _
    constructor
    · intro _; rfl
    · intro k j h; simp [currentChain, initState] at h
  · intro _ i b j pb h; simp [initState] at h

/-- Opening a block preserves the scan invariant, moving the bound to
the token's `lastIndex`. -/
theorem openStepInv (languageId : Lang) (s : ParserState) (tok : Token) (lo : Nat)
    (hs : ScanInv languageId.supportsNesting lo s)
    (htok : lo + tok.sel.length + 1 ≤ tok.lastIndex) :
    ScanInv languageId.supportsNesting tok.lastIndex (openStep languageId s tok) := by
  obtain ⟨ha, hb, hc, he, hch, hf⟩ := hs
  have hnorm : (normalizeSelector tok.sel).length ≤ tok.sel.length := normalizeSelectorLengthLe _
  set newB := newLeafRange languageId
      { s with ignoreDeep := bumpDeep s.ignoreDeep (normalizeSelector tok.sel) }
      (normalizeSelector tok.sel)
      (tok.lastIndex - (normalizeSelector tok.sel).length - 1) with hnewB
  have hns : newB.start = tok.lastIndex - (normalizeSelector tok.sel).length - 1 := rfl
  have hne : newB.«end» = 0 := rfl
  have hnp : newB.parent = s.current := rfl
  have hblocks : (openStep languageId s tok).blocks = s.blocks ++ [newB] := rfl
  have hcur : (openStep languageId s tok).current = some s.blocks.length := rfl
  have hstk : (openStep languageId s tok).stack = pushStack languageId s := rfl
  set n := s.blocks.length with hn
  have hlook : ∀ (k : Nat), (s.blocks ++ [newB])[k]? =
      if k < n then s.blocks[k]? else if k = n then some newB else none := by
    intro k
    rw [List.getElem?_append]
    by_cases hk : k < n
    · rw [if_pos hk, if_pos hk]
    · rw [if_neg hk, if_neg hk]
      by_cases hk2 : k = n
      · subst hk2
        rw [if_pos rfl]
        simp
      · rw [if_neg hk2]
        have hge : 1 ≤ k - n := by omega
        rw [List.getElem?_eq_none]
        simp only [List.length_cons, List.length_nil]
        omega
  have hstartlb : lo ≤ tok.lastIndex - (normalizeSelector tok.sel).length - 1 := by omega
  have hstartub : tok.lastIndex - (normalizeSelector tok.sel).length - 1 < tok.lastIndex := by
    omega
  refine ⟨?_, ?_, ?_, ?_, ?_, ?_⟩
  · intro i b h
    rw [hblocks, hlook] at h
    by_cases hi : i < n
    · rw [if_pos hi] at h
      exact lt_of_lt_of_le (ha i b h) (by omega)
    · rw [if_neg hi] at h
      by_cases hi2 : i = n
      · rw [if_pos hi2] at h
        have hbn : b = newB := (Option.some.inj h).symm
        subst hbn
        rw [hns]
        exact hstartub
      · rw [if_neg hi2] at h
        simp at h
  · intro i b h
    rw [hblocks, hlook] at h
    by_cases hi : i < n
    · rw [if_pos hi] at h
      rcases hb i b h with h0 | ⟨h1, h2⟩
      · exact Or.inl h0
      · exact Or.inr ⟨h1, by omega⟩
    · rw [if_neg hi] at h
      by_cases hi2 : i = n
      · rw [if_pos hi2] at h
        have hbn : b = newB := (Option.some.inj h).symm
        subst hbn
        exact Or.inl hne
      · rw [if_neg hi2] at h
        simp at h
  · intro i b h j hj
    rw [hblocks, hlook] at h
    by_cases hi : i < n
    · rw [if_pos hi] at h
      obtain ⟨hlt, pb, hpb, hps⟩ := hc i b h j hj
      refine ⟨hlt, pb, ?_, hps⟩
      rw [hblocks, hlook, if_pos (by omega)]
      exact hpb
    · rw [if_neg hi] at h
      by_cases hi2 : i = n
      · rw [if_pos hi2] at h
        have hbn : b = newB := (Option.some.inj h).symm
        subst hbn
        rw [hnp] at hj
        have hjn : j < n := he j hj
        obtain ⟨pb, hpb⟩ : ∃ pb, s.blocks[j]? = some pb :=
          ⟨_, List.getElem?_eq_getElem hjn⟩
        refine ⟨by omega, pb, ?_, ?_⟩
        · rw [hblocks, hlook, if_pos hjn]
          exact hpb
        · rw [hns]
          exact le_trans (le_of_lt (ha j pb hpb)) hstartlb
      · rw [if_neg hi2] at h
        simp at h
  · intro i h
    rw [hcur] at h
    have hin : i = n := (Option.some.inj h).symm
    subst hin
    rw [hblocks]
    simp
  · intro hnest
    obtain ⟨hd1, hd2⟩ := hch hnest
    have hchain' : currentChain (openStep languageId s tok) = n :: currentChain s := by
      rw [currentChain, hcur, hstk, pushStack]
      cases hcs : s.current with
      | some p =>
        simp only []
        rw [if_pos hnest]
        simp [currentChain, hcs]
      | none =>
        simp only []
        rw [hd1 hcs]
        simp [currentChain, hcs, hd1 hcs]
    constructor
    · intro h
      rw [hcur] at h
      simp at h
    · intro k j hk
      rw [hchain'] at hk
      cases k with
      | zero =>
        simp only [List.getElem?_cons_zero, Option.some.injEq] at hk
        subst hk
        refine ⟨newB, ?_, hne, ?_⟩
        · rw [hblocks, hlook, if_neg (by omega), if_pos rfl]
        · rw [hnp, hchain']
          simp only [List.getElem?_cons_succ]
          exact (currentChainHead s hd1).symm
      | succ k =>
        simp only [List.getElem?_cons_succ] at hk
        obtain ⟨bj, hbj, hbje, hbjp⟩ := hd2 k j hk
        have hjn : j < n := by
          obtain ⟨hlt, _⟩ := List.getElem?_eq_some.mp hbj
          exact hlt
        refine ⟨bj, ?_, hbje, ?_⟩
        · rw [hblocks, hlook, if_pos hjn]
          exact hbj
        · rw [hchain']
          simp only [List.getElem?_cons_succ]
          exact hbjp
  · intro hnest i b j pb hib hjp hjpb hpbe hbe
    rw [hblocks, hlook] at hib hjpb
    by_cases hi : i < n
    · rw [if_pos hi] at hib
      by_cases hjn : j < n
      · rw [if_pos hjn] at hjpb
        exact hf hnest i b j pb hib hjp hjpb hpbe hbe
      · obtain ⟨hlt, _, _, _⟩ := hc i b hib j hjp
        omega
    · rw [if_neg hi] at hib
      by_cases hi2 : i = n
      · rw [if_pos hi2] at hib
        have hbn : b = newB := (Option.some.inj hib).symm
        subst hbn
        exact absurd hne hbe
      · rw [if_neg hi2] at hib
        simp at hib

theorem chainOfHeadTail (st : List Nat) : (st.head?).toList ++ st.tail = st := by
  cases st <;> simp

/-- Closing a block preserves the scan invariant, moving the bound to
the close position. -/
theorem closeStepInv (languageId : Lang) (s : ParserState) (e lo : Nat)
    (hs : ScanInv languageId.supportsNesting lo s) (helo : lo < e) :
    ScanInv languageId.supportsNesting e (closeStep languageId s e) := by
  obtain ⟨ha, hb, hc, he, hch, hf⟩ := hs
  rw [closeStep]
  cases hcs : s.current with
  | none =>
    simp only []
    have hchainN : currentChain s = s.stack := by rw [currentChain, hcs]; rfl
    refine ⟨fun k b h => lt_trans (ha k b h) helo, ?_, hc, ?_, ?_, hf⟩
    · intro k b h
      rcases hb k b h with h0 | ⟨h1, h2⟩
      · exact Or.inl h0
      · exact Or.inr ⟨h1, by omega⟩
    · intro p hp
      simp at hp
    · intro hnest
      obtain ⟨hd1, hd2⟩ := hch hnest
      constructor
      · intro _
        show s.stack = []
        exact hd1 hcs
      · intro k j hk
        replace hk : s.stack[k]? = some j := by simpa [currentChain] using hk
        obtain ⟨bj, hbj, hbje, hbjp⟩ := hd2 k j (by rw [hchainN]; exact hk)
        refine ⟨bj, hbj, hbje, ?_⟩
        show bj.parent = ((none : Option Nat).toList ++ s.stack)[k + 1]?
        rw [hbjp, hchainN]
        rfl
  | some i =>
    simp only []
    have hiv : i < s.blocks.length := he i hcs
    obtain ⟨bi, hbi⟩ : ∃ bi, s.blocks[i]? = some bi := ⟨_, List.getElem?_eq_getElem hiv⟩
    have hcb : closeBlocks s.blocks i e = s.blocks.set i { bi with «end» := e } := by
      rw [closeBlocks, hbi]
    have hlook : ∀ (k : Nat), (s.blocks.set i { bi with «end» := e })[k]? =
        if i = k then some { bi with «end» := e } else s.blocks[k]? := by
      intro k
      by_cases hk : i = k
      · subst hk; rw [if_pos rfl, List.getElem?_set_self hiv]
      · rw [if_neg hk, List.getElem?_set_ne hk]
    have hA : ∀ (k : Nat) (b : LeafRange),
        (s.blocks.set i { bi with «end» := e })[k]? = some b → b.start < e := by
      intro k b h
      rw [hlook] at h
      by_cases hk : i = k
      · rw [if_pos hk] at h
        have hbb : b = { bi with «end» := e } := (Option.some.inj h).symm
        subst hbb
        exact lt_trans (ha i bi hbi) helo
      · rw [if_neg hk] at h
        exact lt_trans (ha k b h) helo
    have hB : ∀ (k : Nat) (b : LeafRange),
        (s.blocks.set i { bi with «end» := e })[k]? = some b →
        b.«end» = 0 ∨ (b.start < b.«end» ∧ b.«end» ≤ e) := by
      intro k b h
      rw [hlook] at h
      by_cases hk : i = k
      · rw [if_pos hk] at h
        have hbb : b = { bi with «end» := e } := (Option.some.inj h).symm
        subst hbb
        exact Or.inr ⟨lt_trans (ha i bi hbi) helo, le_refl e⟩
      · rw [if_neg hk] at h
        rcases hb k b h with h0 | ⟨h1, h2⟩
        · exact Or.inl h0
        · exact Or.inr ⟨h1, by omega⟩
    have hC : ∀ (k : Nat) (b : LeafRange),
        (s.blocks.set i { bi with «end» := e })[k]? = some b → ∀ j, b.parent = some j →
        j < k ∧ ∃ pb, (s.blocks.set i { bi with «end» := e })[j]? = some pb ∧
          pb.start ≤ b.start := by
      intro k b h j hj
      rw [hlook] at h
      by_cases hk : i = k
      · rw [if_pos hk] at h
        have hbb : b = { bi with «end» := e } := (Option.some.inj h).symm
        subst hbb
        have hj' : bi.parent = some j := hj
        obtain ⟨hlt, pb, hpb, hps⟩ := hc i bi hbi j hj'
        subst hk
        refine ⟨hlt, pb, ?_, hps⟩
        rw [hlook, if_neg (by omega)]
        exact hpb
      · rw [if_neg hk] at h
        obtain ⟨hlt, pb, hpb, hps⟩ := hc k b h j hj
        by_cases hji : j = i
        · subst hji
          have hpbi : pb = bi := Option.some.inj (hpb.symm.trans hbi)
          refine ⟨hlt, { bi with «end» := e }, ?_, ?_⟩
          · rw [hlook, if_pos rfl]
          · show bi.start ≤ b.start
            rw [← hpbi]
            exact hps
        · refine ⟨hlt, pb, ?_, hps⟩
          rw [hlook, if_neg (fun hh => hji hh.symm)]
          exact hpb
    by_cases hnest : languageId.supportsNesting = true
    · rw [if_pos hnest, hcb]
      obtain ⟨hd1, hd2⟩ := hch hnest
      have hchainS : currentChain s = i :: s.stack := by
        rw [currentChain, hcs]; rfl
      have hdec := chainStep s hd2 hc
      have hchain0 : (currentChain s)[0]? = some i := by rw [hchainS]; simp
      refine ⟨hA, hB, hC, ?_, ?_, ?_⟩
      · intro p hp
        replace hp : s.stack.head? = some p := hp
        cases hsk : s.stack with
        | nil => rw [hsk] at hp; simp at hp
        | cons q st =>
          rw [hsk] at hp
          simp only [List.head?_cons, Option.some.injEq] at hp
          have hq : (currentChain s)[1]? = some p := by
            rw [hchainS, hsk]
            simp [hp]
          obtain ⟨bq, hbq, _, _⟩ := hd2 1 p hq
          obtain ⟨hlt, _⟩ := List.getElem?_eq_some.mp hbq
          rw [List.length_set]
          exact hlt
      · intro _
        constructor
        · intro h
          replace h : s.stack.head? = none := h
          show s.stack.tail = []
          cases hsk : s.stack with
          | nil => rfl
          | cons q st => rw [hsk] at h; simp at h
        · intro k j hk
          replace hk : ((s.stack.head?).toList ++ s.stack.tail)[k]? = some j := hk
          rw [chainOfHeadTail] at hk
          have hk' : (currentChain s)[k + 1]? = some j := by
            rw [hchainS]
            simpa using hk
          obtain ⟨bj, hbj, hbje, hbjp⟩ := hd2 (k + 1) j hk'
          have hji : j < i := chainLt s hdec k i j hchain0 hk'
          refine ⟨bj, ?_, hbje, ?_⟩
          · show (s.blocks.set i { bi with «end» := e })[j]? = some bj
            rw [hlook, if_neg (by omega)]
            exact hbj
          · show bj.parent = ((s.stack.head?).toList ++ s.stack.tail)[k + 1]?
            rw [chainOfHeadTail]
            rw [hbjp, hchainS]
            simp
      · intro _ i2 b j2 pb hib hjp hjpb hpbe hbe
        replace hib : (s.blocks.set i { bi with «end» := e })[i2]? = some b := hib
        replace hjpb : (s.blocks.set i { bi with «end» := e })[j2]? = some pb := hjpb
        rw [hlook] at hib hjpb
        by_cases hi2 : i = i2
        · rw [if_pos hi2] at hib
          have hbb : b = { bi with «end» := e } := (Option.some.inj hib).symm
          subst hbb
          have hj' : bi.parent = some j2 := hjp
          by_cases hj2 : i = j2
          · obtain ⟨hlt, _, _, _⟩ := hc i bi hbi j2 hj'
            omega
          · rw [if_neg hj2] at hjpb
            subst hi2
            obtain ⟨pb0, hpb0, hpb0e⟩ :=
              chainParentOpen s ⟨hd1, hd2⟩ i hcs bi hbi j2 hj'
            have : pb = pb0 := Option.some.inj (hjpb.symm.trans hpb0)
            subst this
            exact absurd hpb0e hpbe
        · rw [if_neg hi2] at hib
          by_cases hj2 : i = j2
          · rw [if_pos hj2] at hjpb
            have hpbb : pb = { bi with «end» := e } := (Option.some.inj hjpb).symm
            subst hpbb
            show b.«end» ≤ e
            rcases hb i2 b hib with h0 | ⟨_, h2⟩
            · exact absurd h0 hbe
            · omega
          · rw [if_neg hj2] at hjpb
            exact hf hnest i2 b j2 pb hib hjp hjpb hpbe hbe
    · rw [if_neg hnest, hcb]
      refine ⟨hA, hB, hC, ?_, ?_, ?_⟩
      · intro p hp
        replace hp : (some i : Option Nat) = some p := hp
        have hpi : p = i := (Option.some.inj hp).symm
        subst hpi
        rw [List.length_set]
        exact hiv
      · intro hn2; exact absurd hn2 hnest
      · intro hn2; exact absurd hn2 hnest

theorem stepTokenInv (languageId : Lang) (s : ParserState) (tok : Token) (lo : Nat)
    (hs : ScanInv languageId.supportsNesting lo s)
    (htok : lo + tok.sel.length + 1 ≤ tok.lastIndex) :
    ScanInv languageId.supportsNesting tok.lastIndex (stepToken languageId s tok) := by
  rw [stepToken]
  by_cases h1 : tok.endChar = lbrace ∧ tok.sel ≠ []
  · rw [if_pos h1]
    exact openStepInv languageId s tok lo hs htok
  · rw [if_neg h1]
    by_cases h2 : tok.endChar = rbrace
    · rw [if_pos h2]
      exact closeStepInv languageId s tok.lastIndex lo hs (by omega)
    · rw [if_neg h2]
      exact scanInvMono _ lo tok.lastIndex s hs (by omega)

theorem runTokensInv (languageId : Lang) :
    ∀ (toks : List Token) (lo hi : Nat) (s : ParserState), TokensWF lo hi toks →
      ScanInv languageId.supportsNesting lo s → lo ≤ hi →
      ScanInv languageId.supportsNesting hi (runTokens languageId s toks) := by
  intro toks
  induction toks with
  | nil => intro lo hi s _ hs hle; exact scanInvMono _ lo hi s hs hle
  | cons t ts ih =>
    intro lo hi s hwf hs _
    obtain ⟨h1, h2, h3⟩ := hwf
    show ScanInv _ hi (runTokens languageId (stepToken languageId s t) ts)
    exact ih t.lastIndex hi _ h3 (stepTokenInv languageId s t lo hs h1) h2

/-- After the end-of-input closure: every block's end is unset or at or
after its start; and, for nesting dialects, a parent-linked pair with
both ends set is contained (parent starts no later and ends no
earlier). -/
theorem finishParseFacts (nesting : Bool) (hi : Nat) (s : ParserState)
    (hs : ScanInv nesting hi s) :
    (∀ (i : Nat) (b : LeafRange), (finishParse hi s).blocks[i]? = some b →
      b.«end» = 0 ∨ b.start ≤ b.«end») ∧
    (nesting = true → ∀ (i : Nat) (b : LeafRange) (j : Nat) (pb : LeafRange),
      (finishParse hi s).blocks[i]? = some b → b.parent = some j →
      (finishParse hi s).blocks[j]? = some pb → b.«end» ≠ 0 → pb.«end» ≠ 0 →
      pb.start ≤ b.start ∧ b.«end» ≤ pb.«end») := by
  obtain ⟨ha, hb, hc, he, hch, hf⟩ := hs
  have hplain : (∀ (i : Nat) (b : LeafRange), s.blocks[i]? = some b →
        b.«end» = 0 ∨ b.start ≤ b.«end») ∧
      (nesting = true → ∀ (i : Nat) (b : LeafRange) (j : Nat) (pb : LeafRange),
        s.blocks[i]? = some b → b.parent = some j →
        s.blocks[j]? = some pb → b.«end» ≠ 0 → pb.«end» ≠ 0 →
        pb.start ≤ b.start ∧ b.«end» ≤ pb.«end») := by
    constructor
    · intro i b h
      rcases hb i b h with h0 | ⟨h1, _⟩
      · exact Or.inl h0
      · exact Or.inr (le_of_lt h1)
    · intro hnest i b j pb hib hjp hjpb hbe hpbe
      obtain ⟨_, pb', hpb', hps⟩ := hc i b hib j hjp
      have hpp : pb' = pb := Option.some.inj (hpb'.symm.trans hjpb)
      rw [hpp] at hps
      exact ⟨hps, hf hnest i b j pb hib hjp hjpb hpbe hbe⟩
  rw [finishParse]
  cases hcs : s.current with
  | none => exact hplain
  | some i0 =>
    simp only []
    cases hbi0 : s.blocks[i0]? with
    | none => exact hplain
    | some b0 =>
      simp only []
      by_cases he0 : b0.«end» = 0
      · rw [if_pos he0]
        have hiv : i0 < s.blocks.length := he i0 hcs
        have hlook : ∀ (k : Nat), (s.blocks.set i0 { b0 with «end» := hi })[k]? =
            if i0 = k then some { b0 with «end» := hi } else s.blocks[k]? := by
          intro k
          by_cases hk : i0 = k
          · subst hk; rw [if_pos rfl, List.getElem?_set_self hiv]
          · rw [if_neg hk, List.getElem?_set_ne hk]
        constructor
        · intro k b h
          replace h : (s.blocks.set i0 { b0 with «end» := hi })[k]? = some b := h
          rw [hlook] at h
          by_cases hk : i0 = k
          · rw [if_pos hk] at h
            have hbb : b = { b0 with «end» := hi } := (Option.some.inj h).symm
            subst hbb
            exact Or.inr (le_of_lt (ha i0 b0 hbi0))
          · rw [if_neg hk] at h
            rcases hb k b h with h0 | ⟨h1, _⟩
            · exact Or.inl h0
            · exact Or.inr (le_of_lt h1)
        · intro hnest i b j pb hib hjp hjpb hbe hpbe
          replace hib : (s.blocks.set i0 { b0 with «end» := hi })[i]? = some b := hib
          replace hjpb : (s.blocks.set i0 { b0 with «end» := hi })[j]? = some pb := hjpb
          rw [hlook] at hib hjpb
          by_cases hi2 : i0 = i
          · rw [if_pos hi2] at hib
            have hbb : b = { b0 with «end» := hi } := (Option.some.inj hib).symm
            subst hbb
            have hj' : b0.parent = some j := hjp
            by_cases hj2 : i0 = j
            · obtain ⟨hlt, _, _, _⟩ := hc i0 b0 hbi0 j hj'
              omega
            · rw [if_neg hj2] at hjpb
              subst hi2
              obtain ⟨pb1, hpb1, hpb1e⟩ :=
                chainParentOpen s (hch hnest) i0 hcs b0 hbi0 j hj'
              have hpp : pb = pb1 := Option.some.inj (hjpb.symm.trans hpb1)
              subst hpp
              exact absurd hpb1e hpbe
          · rw [if_neg hi2] at hib
            by_cases hj2 : i0 = j
            · rw [if_pos hj2] at hjpb
              have hpbb : pb = { b0 with «end» := hi } := (Option.some.inj hjpb).symm
              subst hpbb
              obtain ⟨_, pb', hpb', hps⟩ := hc i b hib j hjp
              have hpp : pb' = b0 := by
                rw [← hj2] at hpb'
                exact Option.some.inj (hpb'.symm.trans hbi0)
              subst hpp
              constructor
              · exact hps
              · show b.«end» ≤ hi
                rcases hb i b hib with h0 | ⟨_, h2⟩
                · exact absurd h0 hbe
                · exact h2
            · rw [if_neg hj2] at hjpb
              obtain ⟨_, pb', hpb', hps⟩ := hc i b hib j hjp
              have hpp : pb' = pb := Option.some.inj (hpb'.symm.trans hjpb)
              rw [hpp] at hps
              exact ⟨hps, hf hnest i b j pb hib hjp hjpb hpbe hbe⟩
      · rw [if_neg he0]
        exact hplain

/-- The two end-of-parse facts, packaged for the block list that `parse`
emits. -/
theorem parseBlocksFacts (languageId : Lang) (text : Chars) :
    (∀ (i : Nat) (b : LeafRange), (parseBlocks languageId text)[i]? = some b →
      b.«end» = 0 ∨ b.start ≤ b.«end») ∧
    (languageId.supportsNesting = true → ∀ (i : Nat) (b : LeafRange) (j : Nat) (pb : LeafRange),
      (parseBlocks languageId text)[i]? = some b → b.parent = some j →
      (parseBlocks languageId text)[j]? = some pb → b.«end» ≠ 0 → pb.«end» ≠ 0 →
      pb.start ≤ b.start ∧ b.«end» ≤ pb.«end») := by
  have hinv := runTokensInv languageId (tokenize text) 0 text.length initState
    (tokenizeWF text) (initStateInv _) (by omega)
  exact finishParseFacts _ text.length _ hinv

/-! ## Helper lemmas: opaque atomic spans and the resolver walk -/

theorem atomicSplitsCleanPrefix (cl : Char) (hcl : isLineTerm cl = false) :
    ∀ (body rest : Chars), (∀ c ∈ body, c ≠ cl ∧ isLineTerm c = false) →
      atomicSplits cl true (body ++ cl :: rest) = rest :: atomicSplits cl true rest := by
  intro body
  induction body with
  | nil =>
    intro rest _
    show atomicSplits cl true (cl :: rest) = _
    rw [atomicSplits]
    rw [if_neg (by simp [hcl]), if_pos rfl]
  | cons c body ih =>
    intro rest hb
    obtain ⟨hc1, hc2⟩ := hb c (by simp)
    show atomicSplits cl true (c :: (body ++ cl :: rest)) = _
    rw [atomicSplits]
    rw [if_neg (by simp [hc2]), if_neg hc1]
    exact ih rest (fun c' hc' => hb c' (by simp [hc']))

/-- When the fragment search succeeds on the text after an atomic
parenthesised/quoted span (whose body contains no closing delimiter and
no line terminator), the span is consumed opaquely: terminator
characters inside its body never end the fragment. -/
theorem fragSearchAtomicOpaque (op cl : Char) (body rest f : Chars) (t : Char) (r : Chars)
    (hop : (op = '(' ∧ cl = ')') ∨ (op = '"' ∧ cl = '"') ∨ (op = squote ∧ cl = squote))
    (hbody : ∀ c ∈ body, c ≠ cl ∧ isLineTerm c = false)
    (hrest : fragSearch rest = some (f, t, r)) :
    fragSearch (op :: (body ++ cl :: rest)) = some (op :: (body ++ cl :: f), t, r) := by
  have hclnl : isLineTerm cl = false := by
    rcases hop with ⟨_, rfl⟩ | ⟨_, rfl⟩ | ⟨_, rfl⟩ <;> decide
  have hterm : isTerm op = false := by
    rcases hop with ⟨rfl, _⟩ | ⟨rfl, _⟩ | ⟨rfl, _⟩ <;> decide
  have hatomics : fragAtomics op (body ++ cl :: rest) =
      atomicSplits cl true (body ++ cl :: rest) := by
    rcases hop with ⟨rfl, rfl⟩ | ⟨rfl, rfl⟩ | ⟨rfl, rfl⟩
    · rw [fragAtomics, if_pos rfl]
    · rw [fragAtomics, if_neg (by decide), if_pos rfl]
    · rw [fragAtomics, if_neg (by decide), if_neg (by decide), if_pos rfl]
  have hfuel : fragSearchF (op :: (body ++ cl :: rest)).length rest = some (f, t, r) := by
    rw [fragSearchFFuelEq (op :: (body ++ cl :: rest)).length (rest.length + 1) rest
      (by simp; omega) (by omega)]
    exact hrest
  have htake : (body ++ cl :: rest).take ((body ++ cl :: rest).length - rest.length) =
      body ++ [cl] := by
    have h1 : (body ++ cl :: rest).length - rest.length = (body ++ [cl]).length := by
      simp only [List.length_append, List.length_cons, List.length_nil]
      omega
    rw [h1]
    have h2 : body ++ cl :: rest = (body ++ [cl]) ++ rest := by simp
    rw [h2, List.take_left]
  rw [fragSearch]
  rw [fragSearchF]
  rw [if_neg (by simp [hterm])]
  rw [hatomics, atomicSplitsCleanPrefix cl hclnl body rest hbody]
  rw [firstSome]
  simp only [hfuel, htake]
  simp

theorem closestWalkFEqSpec (blocks : List LeafRange)
    (h : ∀ b ∈ blocks, 1 < b.names.length → b.names.any (fun n => n.isSelector) = true) :
    ∀ (fuel : Nat) (cur : Option Nat),
      closestWalkF fuel blocks cur = specClosestWalkF fuel blocks cur := by
  intro fuel
  induction fuel with
  | zero => intro cur; rfl
  | succ n ih =>
    intro cur
    cases cur with
    | none => rfl
    | some i =>
      rw [closestWalkF, specClosestWalkF]
      cases hbi : blocks[i]? with
      | none => rfl
      | some b =>
        simp only []
        have hmem : b ∈ blocks := List.getElem?_mem hbi
        have hcond : closestCond b = specClosestCond b := by
          rw [closestCond, specClosestCond]
          cases hn : b.names with
          | nil => simp
          | cons a l =>
            cases l with
            | nil => simp
            | cons a2 l2 =>
              have hany := h b hmem (by rw [hn]; simp)
              rw [hn] at hany
              simp [hany]
        rw [hcond]
        by_cases hsc : specClosestCond b = true
        · rw [if_pos hsc, if_pos hsc]
        · rw [if_neg hsc, if_neg hsc]
          exact ih b.parent

/-! ## Claim theorems -/

/-- C1 (counterexample): on css input `.a{}` the single created block has
start offset 0, while the matched `{` (the only `{` of the text) sits at
offset 2 — the block's start is not the position of the matched `{`. -/
theorem C1_counterexample :
    (parseBlocks Lang.css ".a\x7b\x7d".toList).map (fun b => b.start) = [0] ∧
    ".a\x7b\x7d".toList[2]? = some lbrace ∧
    ".a\x7b\x7d".toList.count lbrace = 1 ∧
    (0 : Nat) ≠ 2 := by
  decide

/-- C1 (amended): for every input text and dialect, the i-th created
Block's start offset equals the `lastIndex` of the i-th opening token
(the index one past its matched `{`) minus the normalized (right-trimmed,
whitespace-collapsed) selector length minus 1; the character at
`lastIndex - 1` is the matched `{`. -/
theorem C1_amended (languageId : Lang) (text : Chars) (i : Nat) (tok : Token) (b : LeafRange)
    (htok : (openSelTokens (tokenize text))[i]? = some tok)
    (hb : (parseBlocks languageId text)[i]? = some b) :
    b.start + (normalizeSelector tok.sel).length + 1 = tok.lastIndex ∧
    text[tok.lastIndex - 1]? = some lbrace := by
  have hmap := parseBlocksMapStart languageId text
  have h1 : (List.map (fun b => b.start) (parseBlocks languageId text))[i]? =
      (List.map (fun t => t.lastIndex - (normalizeSelector t.sel).length - 1)
        (openSelTokens (tokenize text)))[i]? := by rw [hmap]
  rw [List.getElem?_map, List.getElem?_map, hb, htok] at h1
  simp only [Option.map_some'] at h1
  have hstart : b.start = tok.lastIndex - (normalizeSelector tok.sel).length - 1 :=
    Option.some.inj h1
  have hmemf := List.getElem?_mem htok
  obtain ⟨htm, hopTok⟩ := List.mem_filter.mp hmemf
  have hwf := (tokensWFMem _ (tokenize text) 0 (tokenizeWF text) tok htm).1
  have hnorm := normalizeSelectorLengthLe tok.sel
  have hop' : tok.endChar = lbrace ∧ tok.sel ≠ [] := by
    rw [isOpenTok] at hopTok
    exact of_decide_eq_true hopTok
  constructor
  · omega
  · have hch := tokenizeEndChar text tok htm
    rw [hop'.1] at hch
    exact hch

/-- C1 (witness): concrete instance of the amended claim on css input
`.a {}`, whose single block has start 1 and opening token lastIndex 4. -/
theorem C1_witness :
    (⟨[⟨".a".toList, ".a".toList, true⟩], 1, 5, none⟩ : LeafRange).start +
        (normalizeSelector ".a ".toList).length + 1 =
      (⟨".a ".toList, lbrace, 4⟩ : Token).lastIndex ∧
    ".a \x7b\x7d".toList[(⟨".a ".toList, lbrace, 4⟩ : Token).lastIndex - 1]? = some lbrace :=
  C1_amended Lang.css ".a \x7b\x7d".toList 0 ⟨".a ".toList, lbrace, 4⟩
    ⟨[⟨".a".toList, ".a".toList, true⟩], 1, 5, none⟩ (by decide) (by decide)

/-- C2 (counterexample): parsing `.a { color: red; }` as css yields one
NamedRange whose names are `[{full: ".a", main: ".a"}]` — the extracted
main keeps its `.` prefix, not the claimed `[{full: ".a", main: "a"}]`. -/
theorem C2_counterexample :
    (parse Lang.css ".a \x7b color: red; \x7d".toList).map (fun r => r.names) =
      [[⟨".a".toList, ".a".toList⟩]] ∧
    (parse Lang.css ".a \x7b color: red; \x7d".toList).map (fun r => r.names) ≠
      [[⟨".a".toList, "a".toList⟩]] := by
  decide

/-- C2 (amended): parsing `.a { color: red; }` (css) returns exactly one
NamedRange with names `[{full: ".a", main: ".a"}]`, and parsing
`.a { .b { color: blue; } }` (scss, nesting-capable) yields an inner
NamedRange with names `[{full: ".a .b", main: ".b"}]`: the extracted main
identifier is the word token together with its `.`/`#` prefix. -/
theorem C2_amended :
    (parse Lang.css ".a \x7b color: red; \x7d".toList).map (fun r => r.names) =
      [[⟨".a".toList, ".a".toList⟩]] ∧
    (parse Lang.scss ".a \x7b .b \x7b color: blue; \x7d \x7d".toList).map (fun r => r.names) =
      [[⟨".a".toList, ".a".toList⟩], [⟨".a .b".toList, ".b".toList⟩]] := by
  decide

/-- C3 (counterexample): on scss input ` .a{.b{` the outer block is never
closed at end-of-input — only the innermost active block is.  The outer
emitted NamedRange keeps end offset 0, which is before its start offset 1
and differs from the text length 7. -/
theorem C3_counterexample :
    (parse Lang.scss " .a\x7b.b\x7b".toList).map (fun r => r.range) = [(1, 0), (4, 7)] ∧
    " .a\x7b.b\x7b".toList.length = 7 ∧
    ¬((1 : Nat) ≤ 0) := by
  decide

/-- C3 (amended): at end of input only the innermost active block is
closed, with its end set to the end of the text; still-open ancestor
blocks keep their unset end offset 0.  Hence every emitted NamedRange
has end offset 0 (an unclosed ancestor) or an end offset at or after its
start offset. -/
theorem C3_amended (languageId : Lang) (text : Chars) (r : NamedRange)
    (hr : r ∈ parse languageId text) :
    (r.range.2 = 0 ∨ r.range.1 ≤ r.range.2) ∧
    (∀ (i : Nat) (b : LeafRange),
      (runTokens languageId initState (tokenize text)).current = some i →
      (runTokens languageId initState (tokenize text)).blocks[i]? = some b →
      b.«end» = 0 →
      (parseBlocks languageId text)[i]? = some { b with «end» := text.length }) := by
  constructor
  · rw [parse, formatToNamedRanges] at hr
    obtain ⟨b, hbmem, hbr⟩ := List.mem_map.mp hr
    obtain ⟨i, hbi⟩ := List.getElem?_of_mem hbmem
    have hfact := (parseBlocksFacts languageId text).1 i b hbi
    subst hbr
    simpa using hfact
  · intro i b hcur hbi hbe
    rw [parseBlocks, parseBlocksFrom, finishParse, hcur]
    simp only []
    rw [hbi]
    simp only []
    rw [if_pos hbe]
    obtain ⟨hlt, _⟩ := List.getElem?_eq_some.mp hbi
    show ((runTokens languageId initState (tokenize text)).blocks.set i
      { b with «end» := text.length })[i]? = _
    rw [List.getElem?_set_self hlt]

/-- C3 (witness): concrete instance of the amended claim on css input
`.a {`, an unterminated block that is the active block at end of input
and gets closed at the text length 4. -/
theorem C3_witness :
    ((⟨[⟨".a".toList, ".a".toList⟩], (1, 4)⟩ : NamedRange).range.2 = 0 ∨
      (⟨[⟨".a".toList, ".a".toList⟩], (1, 4)⟩ : NamedRange).range.1 ≤
        (⟨[⟨".a".toList, ".a".toList⟩], (1, 4)⟩ : NamedRange).range.2) ∧
    (∀ (i : Nat) (b : LeafRange),
      (runTokens Lang.css initState (tokenize ".a \x7b".toList)).current = some i →
      (runTokens Lang.css initState (tokenize ".a \x7b".toList)).blocks[i]? = some b →
      b.«end» = 0 →
      (parseBlocks Lang.css ".a \x7b".toList)[i]? =
        some { b with «end» := ".a \x7b".toList.length }) :=
  C3_amended Lang.css ".a \x7b".toList ⟨[⟨".a".toList, ".a".toList⟩], (1, 4)⟩
    (by decide)

/-- C4 (counterexample): in css, after `a{}` closes, the block stays
active, so the second block of `a{} b{}` records the first as its parent
(it was opened while the first was the active block), yet its span
(4, 7) does not lie within the first block's span (0, 3). -/
theorem C4_counterexample :
    (parseBlocks Lang.css "a\x7b\x7d b\x7b\x7d".toList).map
        (fun b => (b.start, b.«end», b.parent)) =
      [(0, 3, none), (4, 7, some 0)] ∧
    ¬((7 : Nat) ≤ 3) ∧
    (parseBlocks Lang.scss " .a\x7b.b\x7b".toList).map
        (fun b => (b.start, b.«end», b.parent)) =
      [(1, 0, none), (4, 7, some 0)] ∧
    ¬((7 : Nat) ≤ 0) := by
  decide

/-- C4 (amended): in a nesting-supporting dialect, whenever one emitted
block records another as its parent (it was opened while the other was
the active block) and both blocks' end offsets are set, the nested
block's span lies within the ancestor's span. -/
theorem C4_amended (languageId : Lang) (text : Chars) (i : Nat) (b : LeafRange)
    (j : Nat) (pb : LeafRange)
    (hnest : languageId.supportsNesting = true)
    (hb : (parseBlocks languageId text)[i]? = some b)
    (hp : b.parent = some j)
    (hpb : (parseBlocks languageId text)[j]? = some pb)
    (hbe : b.«end» ≠ 0) (hpbe : pb.«end» ≠ 0) :
    pb.start ≤ b.start ∧ b.«end» ≤ pb.«end» :=
  (parseBlocksFacts languageId text).2 hnest i b j pb hb hp hpb hbe hpbe

/-- C4 (witness): concrete instance of the amended claim on scss input
`.a{.b{}}`: the inner block (3, 7) lies within the outer block (0, 8). -/
theorem C4_witness :
    (⟨[⟨".a".toList, ".a".toList, true⟩], 0, 8, none⟩ : LeafRange).start ≤
        (⟨[⟨".b".toList, ".a .b".toList, true⟩], 3, 7, some 0⟩ : LeafRange).start ∧
    (⟨[⟨".b".toList, ".a .b".toList, true⟩], 3, 7, some 0⟩ : LeafRange).«end» ≤
      (⟨[⟨".a".toList, ".a".toList, true⟩], 0, 8, none⟩ : LeafRange).«end» :=
  C4_amended Lang.scss ".a\x7b.b\x7b\x7d\x7d".toList 1
    ⟨[⟨".b".toList, ".a .b".toList, true⟩], 3, 7, some 0⟩ 0
    ⟨[⟨".a".toList, ".a".toList, true⟩], 0, 8, none⟩
    (by decide) (by decide) (by decide) (by decide) (by decide) (by decide)

/-- C5 (counterexample): the ancestor walk breaks on `names.length > 1`
regardless of selector-ness.  With an active parent carrying two
non-selector Names (and a grandparent carrying a selector Name `.t`),
the claim demands combination with the grandparent (`.t .c`), but the
code selects the parent, collects no selector full names, and drops the
selector child entirely, returning `[]`. -/
theorem C5_counterexample :
    combineNestingNames
        [⟨[⟨".t".toList, ".t".toList, true⟩], 0, 0, none⟩,
         ⟨[⟨"@x".toList, "@x".toList, false⟩, ⟨"@y".toList, "@y".toList, false⟩], 1, 0, some 0⟩]
        (some 1) [⟨".c".toList, ".c".toList, true⟩] = [] ∧
    specCombineNestingNames
        [⟨[⟨".t".toList, ".t".toList, true⟩], 0, 0, none⟩,
         ⟨[⟨"@x".toList, "@x".toList, false⟩, ⟨"@y".toList, "@y".toList, false⟩], 1, 0, some 0⟩]
        (some 1) [⟨".c".toList, ".c".toList, true⟩] =
      [⟨".c".toList, ".t .c".toList, true⟩] ∧
    ([] : List LeafName) ≠ [⟨".c".toList, ".t .c".toList, true⟩] := by
  decide

/-- C5 (amended): the code selects the nearest ancestor whose Name list
has length greater than one or whose first Name has `isSelector = true`,
and returns the child Names unchanged when no such ancestor exists.
Whenever every ancestor Name list of length greater than one contains at
least one selector-type Name (multi-Name lists without one arise only
inside deep-ignore regions, where the resolver is never invoked), this
selection coincides with the claimed rule, i.e. the code's resolution
equals the spec-modelled resolution. -/
theorem C5_amended (blocks : List LeafRange) (current : Option Nat) (oldNames : List LeafName)
    (h : ∀ b ∈ blocks, 1 < b.names.length → b.names.any (fun n => n.isSelector) = true) :
    combineNestingNames blocks current oldNames =
      specCombineNestingNames blocks current oldNames := by
  rw [combineNestingNames, specCombineNestingNames, getClosestSelectorTypeFullNames,
    specGetClosestSelectorTypeFullNames, closestWalkFEqSpec blocks h]

/-- C5 (witness): concrete instance of the amended claim on a singleton
ancestor chain carrying one selector Name. -/
theorem C5_witness :
    combineNestingNames [⟨[⟨".t".toList, ".t".toList, true⟩], 0, 0, none⟩] (some 0)
        [⟨".c".toList, ".c".toList, true⟩] =
      specCombineNestingNames [⟨[⟨".t".toList, ".t".toList, true⟩], 0, 0, none⟩] (some 0)
        [⟨".c".toList, ".c".toList, true⟩] :=
  C5_amended _ _ _ (by decide)

/-- C6 (confirmed): parsing `.a { &:hover { color: red; } }` as scss
returns exactly two NamedRanges, and the inner one's names equal
`[{full: ".a:hover", main: ""}]`: the leading `&` is replaced by the
parent's full selector, and since the raw selector's rightmost
descendant starts with `&` followed by a non-word character, no main
identifier is produced. -/
theorem C6_nested_parent_reference :
    (parse Lang.scss ".a \x7b &:hover \x7b color: red; \x7d \x7d".toList).length = 2 ∧
    ((parse Lang.scss ".a \x7b &:hover \x7b color: red; \x7d \x7d".toList)[1]?).map
        (fun r => r.names) = some [⟨".a:hover".toList, []⟩] := by
  decide

/-- C7 (counterexample): terminator characters inside a
parenthesized/quoted span can end the fragment, two ways.  On input
`(a{b)` the `{` at offset 2 lies inside the parenthesized span from
offset 0 to offset 4, yet the scanner emits the fragment `(a`
terminated by that `{` (the regex backtracks into the span because no
terminator follows it), and `parse` even creates a block from it.  And
a carriage return inside a span makes the lazy `\(.*?\)` fail outright
(`.` without the `s` flag matches no line terminator), so on
`(a;\rb)x{` the `;` inside the parentheses terminates the first
fragment even though a terminator does follow the span. -/
theorem C7_counterexample :
    tokenize "(a\x7bb)".toList = [⟨"(a".toList, lbrace, 3⟩] ∧
    "(a\x7bb)".toList[0]? = some '(' ∧
    "(a\x7bb)".toList[4]? = some ')' ∧
    (parse Lang.css "(a\x7bb)".toList).length = 1 ∧
    tokenize "(a;\rb)x\x7b".toList =
      [⟨"(a".toList, ';', 3⟩, ⟨"b)x".toList, lbrace, 8⟩] := by
  decide

/-- C7 (amended): `;`, `{`, `}` inside a parenthesized, double-quoted, or
single-quoted span never terminate the fragment provided the fragment
search succeeds on the text following the span (a terminator occurs
later) and the span is atomic for the regex (its body contains no
closing delimiter and no line terminator — newline, carriage return,
U+2028 or U+2029, none of which `.` matches without the `s` flag);
without a later terminator the scanner backtracks into the span, and
when the body holds a line terminator the span fails outright, so in
either case an inner `;`/`{`/`}` can terminate the fragment. -/
theorem C7_amended (op cl : Char) (body rest f : Chars) (t : Char) (r : Chars)
    (hop : (op = '(' ∧ cl = ')') ∨ (op = '"' ∧ cl = '"') ∨ (op = squote ∧ cl = squote))
    (hbody : ∀ c ∈ body, c ≠ cl ∧ isLineTerm c = false)
    (hrest : fragSearch rest = some (f, t, r)) :
    fragSearch (op :: (body ++ cl :: rest)) = some (op :: (body ++ cl :: f), t, r) :=
  fragSearchAtomicOpaque op cl body rest f t r hop hbody hrest

/-- C7 (witness): the `;` inside `(x;y)` does not terminate the fragment
of `(x;y){`: the whole span is consumed and the `{` after it ends the
fragment. -/
theorem C7_witness :
    fragSearch ('(' :: ("x;y".toList ++ ')' :: [lbrace])) =
      some ('(' :: ("x;y".toList ++ ')' :: []), lbrace, []) :=
  C7_amended '(' ')' "x;y".toList [lbrace] [] lbrace []
    (Or.inl ⟨rfl, rfl⟩) (by decide) (by decide)

/-- C8 (confirmed): a parse invocation is a pure function of the input
text and dialect: two invocations whose scanner state (nesting stack,
active block, deep-ignore counter, block list) is in the initial
condition produce identical NamedRange sequences. -/
theorem C8_parse_pure (languageId : Lang) (text : Chars) (s1 s2 : ParserState)
    (h1 : s1 = initState) (h2 : s2 = initState) :
    parseFrom languageId text s1 = parseFrom languageId text s2 := by
  subst h1
  subst h2
  rfl

/-- C8 (witness): concrete instance on css input `.a{}`. -/
theorem C8_witness :
    parseFrom Lang.css ".a\x7b\x7d".toList initState =
      parseFrom Lang.css ".a\x7b\x7d".toList initState :=
  C8_parse_pure Lang.css ".a\x7b\x7d".toList initState initState rfl rfl

/-- C9 (counterexample): in css, a later unmatched `}` does change a
previously closed block's offsets: `a{}` alone yields the range (0, 3),
but `a{} }` yields (0, 5) — the trailing `}` overwrote the closed
block's end offset. -/
theorem C9_counterexample :
    (parse Lang.css "a\x7b\x7d \x7d".toList).map (fun r => r.range) = [(0, 5)] ∧
    (parse Lang.css "a\x7b\x7d".toList).map (fun r => r.range) = [(0, 3)] ∧
    (5 : Nat) ≠ 3 := by
  decide

/-- C9 (amended): for a dialect that does not support nesting, a `}`
terminator closing a block leaves that block active (the active-block
reference is only reassigned for nesting dialects), so any later `}`
sets the still-active block's end offset to its own position again,
overwriting the earlier value. -/
theorem C9_amended (languageId : Lang) (s : ParserState) (tok : Token) (i : Nat) (b : LeafRange)
    (hn : languageId.supportsNesting = false)
    (hc : tok.endChar = rbrace)
    (hcur : s.current = some i)
    (hb : s.blocks[i]? = some b) :
    (stepToken languageId s tok).current = some i ∧
    (stepToken languageId s tok).blocks[i]? = some { b with «end» := tok.lastIndex } := by
  have hlb : ¬(tok.endChar = lbrace ∧ tok.sel ≠ []) := by
    rw [hc]
    intro hcontra
    exact absurd hcontra.1 (by decide)
  rw [stepToken, if_neg hlb, if_pos hc, closeStep, hcur]
  simp only []
  rw [if_neg (by simp [hn])]
  constructor
  · rfl
  · show (closeBlocks s.blocks i tok.lastIndex)[i]? = _
    rw [closeBlocks, hb]
    obtain ⟨hlt, _⟩ := List.getElem?_eq_some.mp hb
    rw [List.getElem?_set_self hlt]

/-- C9 (witness): concrete instance — a second `}` at lastIndex 5
overwrites the closed block's end 3 with 5 while the block stays
active. -/
theorem C9_witness :
    (stepToken Lang.css ⟨[⟨[], 0, 3, none⟩], [], some 0, 0⟩ ⟨[], rbrace, 5⟩).current = some 0 ∧
    (stepToken Lang.css ⟨[⟨[], 0, 3, none⟩], [], some 0, 0⟩ ⟨[], rbrace, 5⟩).blocks[0]? =
      some { (⟨[], 0, 3, none⟩ : LeafRange) with «end» := (⟨[], rbrace, 5⟩ : Token).lastIndex } :=
  C9_amended Lang.css ⟨[⟨[], 0, 3, none⟩], [], some 0, 0⟩ ⟨[], rbrace, 5⟩ 0 ⟨[], 0, 3, none⟩
    (by decide) (by decide) (by decide) (by decide)

/-- C10 (confirmed): the deep-ignore trigger is a literal prefix test
for `@keyframes`: `@keyframes-custom x` enters a deep-ignore region
(its child Names get `isSelector = false` and empty mains), while the
vendor-prefixed `@-webkit-keyframes spin` does not (its child Names get
`isSelector = true` and receive the non-empty main identifier `from`). -/
theorem C10_keyframes_prefix :
    shouldIgnoreDeeply "@keyframes-custom x".toList = true ∧
    shouldIgnoreDeeply "@-webkit-keyframes spin".toList = false ∧
    (parseBlocks Lang.scss "@keyframes-custom x\x7bfrom\x7b\x7d\x7d".toList).map
        (fun b => b.names.map (fun n => (n.full, n.isSelector))) =
      [[("@keyframes-custom x".toList, false)], [("from".toList, false)]] ∧
    (parse Lang.scss "@keyframes-custom x\x7bfrom\x7b\x7d\x7d".toList).map
        (fun r => r.names.map (fun n => n.main)) = [[[]], [[]]] ∧
    (parseBlocks Lang.scss "@-webkit-keyframes spin\x7bfrom\x7b\x7d\x7d".toList).map
        (fun b => b.names.map (fun n => (n.full, n.isSelector))) =
      [[("@-webkit-keyframes spin".toList, false)], [("from".toList, true)]] ∧
    (parse Lang.scss "@-webkit-keyframes spin\x7bfrom\x7b\x7d\x7d".toList).map
        (fun r => r.names.map (fun n => n.main)) = [[[]], ["from".toList]] := by
  decide

end CSSNav
